import Mathlib

/-!
Verification of the vivaldi-history export/merge pipeline.

The Python sources `export_vivaldi_history.py` and `merge_timeline_data.py`
are shallowly embedded below: pure functions become Lean functions, the
fallible URL parser returns `Except`, Python `dict`/`Counter` insertion-order
semantics are modelled by association lists updated in place (existing keys
keep their position, new keys are appended), and `Counter.most_common(n)` is
modelled by a stable sort by descending count followed by `take n`.
-/

set_option maxRecDepth 10000

namespace VivaldiHistory

/-! ## Transition decoding (`decode_transition` in `export_vivaldi_history.py`) -/

/-- Embedding of the `core_map` dict of `decode_transition`: the eleven named
core transition types, keyed by the low-8-bit core value. -/
def coreMap : List (Nat × String) :=
  [(0, "link"), (1, "typed"), (2, "auto_bookmark"), (3, "auto_subframe"),
   (4, "manual_subframe"), (5, "generated"), (6, "auto_toplevel"),
   (7, "form_submit"), (8, "reload"), (9, "keyword"), (10, "keyword_generated")]

/-- Association-list lookup, modelling Python `dict.get`. -/
def lookupA {α : Type} (m : List (String × α)) (k : String) : Option α :=
  (m.find? (fun p => p.1 = k)).map (·.2)

/-- Association-list lookup with `Nat` keys. -/
def lookupN {α : Type} (m : List (Nat × α)) (k : Nat) : Option α :=
  (m.find? (fun p => p.1 = k)).map (·.2)

/-- Embedding of the core-name computation in `decode_transition`:
`core = transition & 0xFF`, then `core_map.get(core, f"unknown_{core}")`. -/
def decodeCore (transition : Nat) : String :=
  let core := transition &&& 0xFF
  (lookupN coreMap core).getD ("unknown_" ++ toString core)

/-- Embedding of the qualifier computation in `decode_transition`: the eight
`if transition & mask: qualifiers.append(name)` statements, in source order
(ascending mask value). -/
def decodeQualifiers (transition : Nat) : List String :=
  (if transition &&& 0x01000000 ≠ 0 then ["chain_start"] else [])
    ++ (if transition &&& 0x02000000 ≠ 0 then ["chain_end"] else [])
    ++ (if transition &&& 0x04000000 ≠ 0 then ["client_redirect"] else [])
    ++ (if transition &&& 0x08000000 ≠ 0 then ["server_redirect"] else [])
    ++ (if transition &&& 0x10000000 ≠ 0 then ["is_redirect"] else [])
    ++ (if transition &&& 0x20000000 ≠ 0 then ["from_address_bar"] else [])
    ++ (if transition &&& 0x40000000 ≠ 0 then ["home_page"] else [])
    ++ (if transition &&& 0x80000000 ≠ 0 then ["user_gesture"] else [])

/-- Embedding of `decode_transition`: returns the core name and the qualifier
list. Total: decoding never fails. -/
def decode_transition (transition : Nat) : String × List String :=
  (decodeCore transition, decodeQualifiers transition)

/-- Specification-side core-name table: the eleven names in order, indexed by
core value, with the `unknown_<core>` fallback, written independently of the
dict-lookup embedding. -/
def coreNamesSpec : List String :=
  ["link", "typed", "auto_bookmark", "auto_subframe", "manual_subframe",
   "generated", "auto_toplevel", "form_submit", "reload", "keyword",
   "keyword_generated"]

/-- Specification-side qualifier table: mask and name, in ascending bit order. -/
def qualifierTable : List (Nat × String) :=
  [(0x01000000, "chain_start"), (0x02000000, "chain_end"),
   (0x04000000, "client_redirect"), (0x08000000, "server_redirect"),
   (0x10000000, "is_redirect"), (0x20000000, "from_address_bar"),
   (0x40000000, "home_page"), (0x80000000, "user_gesture")]

lemma lookupN_coreMap_eq_get? (m : Nat) : lookupN coreMap m = coreNamesSpec.get? m := by
  by_cases h : m < 11
  · interval_cases m <;> rfl
  · have hl : lookupN coreMap m = none := by
      have : coreMap.find? (fun p => p.1 = m) = none := by
        apply List.find?_eq_none.mpr
        intro p hp
        simp only [coreMap, List.mem_cons, List.not_mem_nil, or_false] at hp
        rcases hp with h | h | h | h | h | h | h | h | h | h | h <;>
          (subst h; simp; omega)
      simp [lookupN, this]
    have hg : coreNamesSpec.get? m = none := by
      apply List.get?_eq_none.mpr
      simp only [coreNamesSpec, List.length_cons, List.length_nil]
      omega
    rw [hl, hg]

/-- Claim C5: for every 32-bit transition code, decoding takes the low 8 bits
as the core value, maps cores 0 through 10 to the fixed names (link, typed,
auto_bookmark, auto_subframe, manual_subframe, generated, auto_toplevel,
form_submit, reload, keyword, keyword_generated), and maps any other core to
`unknown_<core>` preserving the numeric value; decoding never fails (the
embedding is a total function). -/
theorem decode_transition_core (t : Nat) (ht : t < 2 ^ 32) :
    (decode_transition t).1 =
      (coreNamesSpec.get? (t % 2 ^ 8)).getD ("unknown_" ++ toString (t % 2 ^ 8)) := by
  have hmask : t &&& 0xFF = t % 2 ^ 8 := by
    have := Nat.and_pow_two_sub_one_eq_mod t 8
    simpa using this
  simp only [decode_transition, decodeCore, hmask, lookupN_coreMap_eq_get?]

/-- Witness for C5: concrete decodings at core values 1, 11 and 255. -/
theorem decode_transition_core_witness :
    (decode_transition 0x81000001).1 = "typed" ∧
      (decode_transition 11).1 = "unknown_11" ∧
      (decode_transition 0x000000FF).1 = "unknown_255" := by
  refine ⟨?_, ?_, ?_⟩
  · rw [decode_transition_core 0x81000001 (by norm_num)]; rfl
  · rw [decode_transition_core 11 (by norm_num)]; rfl
  · rw [decode_transition_core 0x000000FF (by norm_num)]; rfl

lemma mem_ite_nil {c : Prop} [Decidable c] {x : String} {l : List String} :
    x ∈ (if c then l else ([] : List String)) ↔ c ∧ x ∈ l := by
  split <;> simp_all

lemma mem_decodeQualifiers (t : Nat) (x : String) :
    x ∈ decodeQualifiers t ↔
      ((t &&& 0x01000000 ≠ 0 ∧ x = "chain_start") ∨
       (t &&& 0x02000000 ≠ 0 ∧ x = "chain_end") ∨
       (t &&& 0x04000000 ≠ 0 ∧ x = "client_redirect") ∨
       (t &&& 0x08000000 ≠ 0 ∧ x = "server_redirect") ∨
       (t &&& 0x10000000 ≠ 0 ∧ x = "is_redirect") ∨
       (t &&& 0x20000000 ≠ 0 ∧ x = "from_address_bar") ∨
       (t &&& 0x40000000 ≠ 0 ∧ x = "home_page") ∨
       (t &&& 0x80000000 ≠ 0 ∧ x = "user_gesture")) := by
  simp only [decodeQualifiers, List.mem_append, mem_ite_nil, List.mem_singleton, or_assoc]

/-- Helper recursion producing, for a table of (mask, name) pairs, the names
whose mask has a set bit in `t`, as append-of-chunks. -/
def qualFilter (t : Nat) : List (Nat × String) → List String
  | [] => []
  | p :: ps => (if t &&& p.1 ≠ 0 then [p.2] else []) ++ qualFilter t ps

lemma qualFilter_eq_filterMap (t : Nat) (l : List (Nat × String)) :
    qualFilter t l = l.filterMap (fun p => if t &&& p.1 ≠ 0 then some p.2 else none) := by
  induction l with
  | nil => rfl
  | cons p ps ih => by_cases h : t &&& p.1 ≠ 0 <;> simp [qualFilter, h, ih]

lemma qualFilter_sublist (t : Nat) (l : List (Nat × String)) :
    (qualFilter t l).Sublist (l.map (·.2)) := by
  induction l with
  | nil => simp [qualFilter]
  | cons p ps ih =>
      by_cases h : t &&& p.1 ≠ 0
      · simpa [qualFilter, h] using ih.cons₂ p.2
      · simpa [qualFilter, h] using ih.cons p.2

lemma decodeQualifiers_eq_qualFilter (t : Nat) :
    decodeQualifiers t = qualFilter t qualifierTable := by
  simp only [decodeQualifiers, qualifierTable, qualFilter, List.append_assoc,
    List.append_nil]

lemma decodeQualifiers_eq_filterMap (t : Nat) :
    decodeQualifiers t =
      qualifierTable.filterMap (fun p => if t &&& p.1 ≠ 0 then some p.2 else none) := by
  rw [decodeQualifiers_eq_qualFilter, qualFilter_eq_filterMap]

lemma decodeQualifiers_sublist (t : Nat) :
    (decodeQualifiers t).Sublist (qualifierTable.map (·.2)) := by
  rw [decodeQualifiers_eq_qualFilter]
  exact qualFilter_sublist t qualifierTable

/-- Claim C6: for every 32-bit transition code, the decoded qualifier list is
exactly the filter of the fixed (mask, name) table by "mask bit set in the
input" (hence contains exactly the named qualifiers whose bits are set, in
fixed ascending-bit-value order), each individual qualifier is present iff its
bit is set, and the list is always a sublist of the fixed ascending-bit-order
name sequence. -/
theorem decode_transition_qualifiers (t : Nat) (ht : t < 2 ^ 32) :
    (decode_transition t).2 =
        qualifierTable.filterMap
          (fun p => if t &&& p.1 ≠ 0 then some p.2 else none) ∧
      ("chain_start" ∈ (decode_transition t).2 ↔ t &&& 0x01000000 ≠ 0) ∧
      ("chain_end" ∈ (decode_transition t).2 ↔ t &&& 0x02000000 ≠ 0) ∧
      ("client_redirect" ∈ (decode_transition t).2 ↔ t &&& 0x04000000 ≠ 0) ∧
      ("server_redirect" ∈ (decode_transition t).2 ↔ t &&& 0x08000000 ≠ 0) ∧
      ("is_redirect" ∈ (decode_transition t).2 ↔ t &&& 0x10000000 ≠ 0) ∧
      ("from_address_bar" ∈ (decode_transition t).2 ↔ t &&& 0x20000000 ≠ 0) ∧
      ("home_page" ∈ (decode_transition t).2 ↔ t &&& 0x40000000 ≠ 0) ∧
      ("user_gesture" ∈ (decode_transition t).2 ↔ t &&& 0x80000000 ≠ 0) ∧
      (decode_transition t).2.Sublist (qualifierTable.map (·.2)) := by
  refine ⟨decodeQualifiers_eq_filterMap t, ?_, ?_, ?_, ?_, ?_, ?_, ?_, ?_,
    decodeQualifiers_sublist t⟩
  all_goals rw [show (decode_transition t).2 = decodeQualifiers t from rfl,
    mem_decodeQualifiers]
  all_goals simp

/-- Witness for C6: a combination of qualifier bits yields exactly the union of
the corresponding names, in ascending-bit order. -/
theorem decode_transition_qualifiers_witness :
    (decode_transition 0x81000000).2 = ["chain_start", "user_gesture"] ∧
      ("user_gesture" ∈ (decode_transition 0x81000000).2 ↔
        0x81000000 &&& 0x80000000 ≠ 0) := by
  constructor
  · rfl
  · exact (decode_transition_qualifiers 0x81000000 (by norm_num)).2.2.2.2.2.2.2.2.1

/-! ## URL parsing

The repository calls CPython `urllib.parse.urlparse` / `parse_qs`. These
external primitives are modelled below following the CPython implementation:
WHATWG sanitization (leading C0-control/space strip, tab/CR/LF removal),
scheme split, netloc split with the `Invalid IPv6 URL` bracket check (modelled
as `Except.error`), fragment then query split, and the params split of
`urlparse`. `unquote` percent-decoding is modelled with a UTF-8 decoder that
emits U+FFFD on malformed sequences. -/

def isUnsafeUrlChar (c : Char) : Bool := c = '\t' || c = '\r' || c = '\n'

def isC0OrSpace (c : Char) : Bool := c ≤ ' '

def isSchemeChar (c : Char) : Bool := c.isAlphanum || c = '+' || c = '-' || c = '.'

/-- Result of `urlsplit`/`urlparse` restricted to the components the
repository reads (`scheme`, `netloc`, `path`, `query`, `fragment`; the
`params` component is split off the path but never read downstream). -/
structure ParseResult where
  scheme : String
  netloc : String
  path : String
  query : String
  fragment : String
deriving Repr, DecidableEq

/-- Scheme split of `urlsplit`: a scheme is recognised before the first `:`
when that colon is not at position 0, the first character is an ASCII letter
and every character before the colon is a scheme character; the scheme is
lowercased. -/
def splitScheme (u : List Char) : String × List Char :=
  match u.findIdx? (· = ':') with
  | some i =>
      if 0 < i ∧ (u.take 1).all (·.isAlpha) ∧ (u.take i).all isSchemeChar then
        (String.mk ((u.take i).map Char.toLower), u.drop (i + 1))
      else ("", u)
  | none => ("", u)

/-- Netloc split of `urlsplit`: after a leading `//`, the netloc extends to
the first `/`, `?` or `#`; a netloc with an unmatched `[` or `]` raises
`ValueError("Invalid IPv6 URL")`. -/
def splitNetloc (u : List Char) : Except String (List Char × List Char) :=
  if u.take 2 = ['/', '/'] then
    let body := u.drop 2
    let netloc := body.takeWhile (fun c => c ≠ '/' ∧ c ≠ '?' ∧ c ≠ '#')
    let rest := body.dropWhile (fun c => c ≠ '/' ∧ c ≠ '?' ∧ c ≠ '#')
    if ('[' ∈ netloc ∧ ']' ∉ netloc) ∨ (']' ∈ netloc ∧ '[' ∉ netloc) then
      .error "Invalid IPv6 URL"
    else .ok (netloc, rest)
  else .ok ([], u)

/-- Embedding of CPython `urllib.parse.urlsplit` (with `allow_fragments`
true, the default used by the repository). -/
def urlsplitE (url : String) : Except String ParseResult := do
  let u0 := url.toList.dropWhile isC0OrSpace
  let u1 := u0.filter (fun c => ¬ isUnsafeUrlChar c)
  let (scheme, r1) := splitScheme u1
  let (netloc, r2) ← splitNetloc r1
  let (r3, fragment) :=
    if '#' ∈ r2 then
      (r2.takeWhile (· ≠ '#'), (r2.dropWhile (· ≠ '#')).drop 1)
    else (r2, [])
  let (path, query) :=
    if '?' ∈ r3 then
      (r3.takeWhile (· ≠ '?'), (r3.dropWhile (· ≠ '?')).drop 1)
    else (r3, [])
  pure ⟨scheme, String.mk netloc, String.mk path, String.mk query, String.mk fragment⟩

/-- Schemes for which `urlparse` splits `;params` off the path
(CPython `uses_params`, restricted to non-empty plus the empty scheme). -/
def usesParams : List String :=
  ["", "ftp", "hdl", "prospero", "http", "imap", "https", "shttp", "rtsp",
   "rtspu", "sip", "sips", "mms", "sftp", "tel"]

/-- Last index of `c` in `l`, CPython `str.rfind`. -/
def rfindIdx (c : Char) (l : List Char) : Option Nat :=
  (l.reverse.findIdx? (· = c)).map (fun j => l.length - 1 - j)

/-- Index of first `c` in `l` at or after `start`, CPython `str.find(c, start)`. -/
def findFrom (c : Char) (start : Nat) (l : List Char) : Option Nat :=
  ((l.drop start).findIdx? (· = c)).map (· + start)

/-- CPython `urllib.parse._splitparams`. -/
def splitparams (u : List Char) : List Char × List Char :=
  if '/' ∈ u then
    match findFrom ';' ((rfindIdx '/' u).getD 0) u with
    | some i => (u.take i, u.drop (i + 1))
    | none => (u, [])
  else
    match u.findIdx? (· = ';') with
    | some i => (u.take i, u.drop (i + 1))
    | none => (u, [])

/-- Embedding of CPython `urllib.parse.urlparse`: `urlsplit` plus the params
split (the params component itself is dropped, as the repository never reads
it). -/
def urlparseE (url : String) : Except String ParseResult := do
  let r ← urlsplitE url
  if r.scheme ∈ usesParams ∧ ';' ∈ r.path.toList then
    pure { r with path := String.mk (splitparams r.path.toList).1 }
  else
    pure r

/-! ## Percent-decoding (`urllib.parse.unquote` with the `+` replacement) -/

def hexDigit (c : Char) : Option Nat :=
  if '0' ≤ c ∧ c ≤ '9' then some (c.toNat - '0'.toNat)
  else if 'a' ≤ c ∧ c ≤ 'f' then some (c.toNat - 'a'.toNat + 10)
  else if 'A' ≤ c ∧ c ≤ 'F' then some (c.toNat - 'A'.toNat + 10)
  else none

/-- Tokenize a percent-encoded string: each valid `%XX` escape becomes a byte
(`Sum.inr`), every other character stays literal (`Sum.inl`); a `%` not
followed by two hex digits stays literal and scanning continues at the next
character. -/
def pctTokens : List Char → List (Char ⊕ Nat)
  | c :: a :: b :: rest =>
      if c = '%' then
        match hexDigit a, hexDigit b with
        | some x, some y => Sum.inr (16 * x + y) :: pctTokens rest
        | _, _ => Sum.inl c :: pctTokens (a :: b :: rest)
      else Sum.inl c :: pctTokens (a :: b :: rest)
  | [c, a] => [Sum.inl c, Sum.inl a]
  | [c] => [Sum.inl c]
  | [] => []

def replacementChar : Char := Char.ofNat 0xFFFD

/-- Greedy UTF-8 decoder emitting U+FFFD for malformed sequences, modelling
`bytes.decode("utf-8", errors="replace")` as used by `unquote`. -/
def utf8Decode : List Nat → List Char
  | [] => []
  | b :: bs =>
      if b < 0x80 then Char.ofNat b :: utf8Decode bs
      else if 0xC2 ≤ b ∧ b ≤ 0xDF then
        match bs with
        | c :: bs' =>
            if 0x80 ≤ c ∧ c ≤ 0xBF then
              Char.ofNat ((b - 0xC0) * 0x40 + (c - 0x80)) :: utf8Decode bs'
            else replacementChar :: utf8Decode (c :: bs')
        | [] => [replacementChar]
      else if 0xE0 ≤ b ∧ b ≤ 0xEF then
        match bs with
        | c :: d :: bs' =>
            if (0x80 ≤ c ∧ c ≤ 0xBF) ∧ (0x80 ≤ d ∧ d ≤ 0xBF) ∧
                (b ≠ 0xE0 ∨ 0xA0 ≤ c) ∧ (b ≠ 0xED ∨ c ≤ 0x9F) then
              Char.ofNat ((b - 0xE0) * 0x1000 + (c - 0x80) * 0x40 + (d - 0x80))
                :: utf8Decode bs'
            else replacementChar :: utf8Decode (c :: d :: bs')
        | [c] => [replacementChar, replacementChar]
        | [] => [replacementChar]
      else if 0xF0 ≤ b ∧ b ≤ 0xF4 then
        match bs with
        | c :: d :: e :: bs' =>
            if (0x80 ≤ c ∧ c ≤ 0xBF) ∧ (0x80 ≤ d ∧ d ≤ 0xBF) ∧
                (0x80 ≤ e ∧ e ≤ 0xBF) ∧ (b ≠ 0xF0 ∨ 0x90 ≤ c) ∧
                (b ≠ 0xF4 ∨ c ≤ 0x8F) then
              Char.ofNat ((b - 0xF0) * 0x40000 + (c - 0x80) * 0x1000 +
                  (d - 0x80) * 0x40 + (e - 0x80)) :: utf8Decode bs'
            else replacementChar :: utf8Decode (c :: d :: e :: bs')
        | l => List.replicate (l.length + 1) replacementChar
      else replacementChar :: utf8Decode bs

/-- Fold the token stream from the right, maintaining the maximal byte run
beginning at the head (first component) and the decoded text that follows it
(second component); each maximal byte run is decoded as UTF-8. -/
def decTok : List (Char ⊕ Nat) → List Nat × List Char
  | [] => ([], [])
  | Sum.inr b :: ts =>
      let p := decTok ts
      (b :: p.1, p.2)
  | Sum.inl c :: ts =>
      let p := decTok ts
      ([], c :: (utf8Decode p.1 ++ p.2))

/-- Embedding of `urllib.parse.unquote` on a character list: literal
characters pass through, maximal runs of `%XX` escapes are decoded as UTF-8,
and a `%` not followed by two hex digits stays literal. -/
def unquoteList (l : List Char) : List Char :=
  let p := decTok (pctTokens l)
  utf8Decode p.1 ++ p.2

def plusToSpace (l : List Char) : List Char :=
  l.map (fun c => if c = '+' then ' ' else c)

/-- CPython `unquote(s.replace('+', ' '))` as applied to each name and value
by `parse_qsl`. -/
def unquotePlus (l : List Char) : String :=
  String.mk (unquoteList (plusToSpace l))

/-- Embedding of CPython `urllib.parse.parse_qsl` with its defaults
(separator `&`, blank values dropped, fields without `=` dropped,
no strict parsing). -/
def parse_qsl (qs : List Char) : List (String × String) :=
  (qs.splitOn '&').filterMap (fun nv =>
    if nv = [] then none
    else
      match nv.dropWhile (· ≠ '=') with
      | [] => none
      | _ :: value =>
          if value = [] then none
          else some (unquotePlus (nv.takeWhile (· ≠ '=')), unquotePlus value))

/-- One step of the dict grouping in `parse_qs`: append the value to an
existing key's list, else append a new key at the end (dict insertion order). -/
def addQsVal {β : Type} (acc : List (String × List β)) (n : String) (v : β) :
    List (String × List β) :=
  match acc with
  | [] => [(n, [v])]
  | p :: ps => if p.1 = n then (p.1, p.2 ++ [v]) :: ps else p :: addQsVal ps n v

/-- Embedding of CPython `urllib.parse.parse_qs`. -/
def parse_qs (qs : String) : List (String × List String) :=
  (parse_qsl qs.toList).foldl (fun acc p => addQsVal acc p.1 p.2) []

/-! ## Domain and search-query extraction (`export_vivaldi_history.py`) -/

/-- Model of CPython `str.lower` (ASCII case mapping; the engine-host and
scheme strings involved are all ASCII). -/
def lowerStr (s : String) : String := String.mk (s.data.map Char.toLower)

/-- Model of CPython substring containment `needle in hay`. -/
def containsSub (needle hay : List Char) : Bool :=
  hay.tails.any (fun t => needle.isPrefixOf t)

/-- Model of CPython `str.startswith`. -/
def startsWithStr (s pre : String) : Bool := pre.data.isPrefixOf s.data

/-- Embedding of `extract_domain`: lowercase netloc on success, empty string
when `urlparse` raises (the `try`/`except` swallows every exception). -/
def extract_domain (url : String) : String :=
  match urlparseE url with
  | .ok p => lowerStr p.netloc
  | .error _ => ""

/-- Embedding of the `engine_hosts` table of `extract_search_query`. -/
def engineHosts : List (String × String) :=
  [("www.google.com", "q"), ("google.com", "q"), ("www.bing.com", "q"),
   ("bing.com", "q"), ("duckduckgo.com", "q"), ("www.duckduckgo.com", "q"),
   ("search.brave.com", "q"), ("search.yahoo.com", "p"), ("yahoo.com", "p")]

/-- Embedding of `extract_search_query`. Unlike `extract_domain` this function
has no exception handler, so a `ValueError` from `urlparse` propagates as
`Except.error`. -/
def extract_search_query (url : String) : Except String (Option String) :=
  match urlparseE url with
  | .error e => .error e
  | .ok parsed =>
      let host := lowerStr parsed.netloc
      let path := lowerStr parsed.path
      match lookupA engineHosts host with
      | some key =>
          if containsSub "search".toList path.data || startsWithStr host "duckduckgo" then
            match lookupA (parse_qs parsed.query) key with
            | some (v :: _) => .ok (some v)
            | _ => .ok none
          else .ok none
      | none => .ok none

/-- Claim C7: domain extraction never raises and never aborts record
construction: it is a total function returning the lowercase network-location
component on successful parse and the empty string on any parse failure. -/
theorem extract_domain_spec (url : String) :
    (∀ p, urlparseE url = .ok p → extract_domain url = lowerStr p.netloc) ∧
      (∀ e, urlparseE url = .error e → extract_domain url = "") := by
  constructor <;> intro x h <;> simp [extract_domain, h]

/-- Witness for C7: an unparsable URL (unmatched IPv6 bracket) yields `""`;
a parsable URL yields its lowercased netloc. -/
theorem extract_domain_spec_witness :
    extract_domain "http://[x" = "" ∧
      extract_domain "https://EXAMPLE.com/a?b#c" = "example.com" := by
  constructor
  · exact (extract_domain_spec "http://[x").2 "Invalid IPv6 URL" rfl
  · have h := (extract_domain_spec "https://EXAMPLE.com/a?b#c").1
      ⟨"https", "EXAMPLE.com", "/a", "b", "c"⟩ rfl
    rw [h]
    rfl

/-- Counterexample for C3: for `https://www.google.com/search` the host is in
the engine table and the path contains `"search"`, yet no query is returned
(the claimed "exactly when" fails because the query parameter must also be
present and non-blank); moreover `extract_search_query` can raise: an
unmatched IPv6 bracket propagates a `ValueError`, contradicting "never an
error". -/
theorem extract_search_query_counterexample :
    urlparseE "https://www.google.com/search" =
        .ok ⟨"https", "www.google.com", "/search", "", ""⟩ ∧
      lookupA engineHosts "www.google.com" = some "q" ∧
      containsSub "search".toList "/search".toList = true ∧
      extract_search_query "https://www.google.com/search" = .ok none ∧
      extract_search_query "http://[x" = .error "Invalid IPv6 URL" := by
  exact ⟨rfl, rfl, rfl, rfl, rfl⟩

lemma lookupA_nil {α : Type} (k : String) : lookupA ([] : List (String × α)) k = none :=
  rfl

lemma lookupA_cons {α : Type} (p : String × α) (ps : List (String × α)) (k : String) :
    lookupA (p :: ps) k = if p.1 = k then some p.2 else lookupA ps k := by
  by_cases h : p.1 = k
  · rw [if_pos h]
    unfold lookupA
    rw [List.find?_cons_of_pos _ (by simpa using h)]
    rfl
  · rw [if_neg h]
    unfold lookupA
    rw [List.find?_cons_of_neg _ (by simpa using h)]

lemma find?_eq_head_filter {α : Type} (ps : List α) (p : α → Bool) :
    ps.find? p = (ps.filter p).head? := by
  induction ps with
  | nil => rfl
  | cons x ps ih =>
      by_cases h : p x = true
      · rw [List.find?_cons_of_pos _ h, List.filter_cons_of_pos h]
        rfl
      · rw [List.find?_cons_of_neg _ h, List.filter_cons_of_neg (by simpa using h)]
        exact ih

lemma lookupA_addQsVal {β : Type} (acc : List (String × List β)) (n : String) (v : β)
    (k : String) :
    lookupA (addQsVal acc n v) k =
      if k = n then some (((lookupA acc n).getD []) ++ [v]) else lookupA acc k := by
  induction acc with
  | nil =>
      show lookupA [(n, [v])] k = _
      rw [lookupA_cons, lookupA_nil, lookupA_nil]
      by_cases h : k = n
      · rw [if_pos h.symm, if_pos h]
        rfl
      · rw [if_neg (fun hc => h hc.symm), if_neg h]
  | cons p ps ih =>
      by_cases hp : p.1 = n
      · have ha : addQsVal (p :: ps) n v = (p.1, p.2 ++ [v]) :: ps := by
          simp [addQsVal, hp]
        rw [ha, lookupA_cons, lookupA_cons]
        by_cases hk : k = n
        · rw [if_pos (hp.trans hk.symm), if_pos hk, if_pos hp]
          rfl
        · rw [if_neg (fun hc : p.1 = k => hk (hc.symm.trans hp)), if_neg hk,
            lookupA_cons, if_neg (fun hc : p.1 = k => hk (hc.symm.trans hp))]
      · have ha : addQsVal (p :: ps) n v = p :: addQsVal ps n v := by
          simp [addQsVal, hp]
        rw [ha, lookupA_cons, ih]
        by_cases hk : p.1 = k
        · have hkn : ¬ k = n := fun hc => hp (hk.trans hc)
          rw [if_pos hk, if_neg hkn, lookupA_cons, if_pos hk]
        · rw [if_neg hk]
          by_cases hknn : k = n
          · rw [if_pos hknn, if_pos hknn, lookupA_cons, if_neg hp]
          · rw [if_neg hknn, if_neg hknn, lookupA_cons, if_neg hk]

lemma lookupA_qsFoldAux {β : Type} [DecidableEq β] (ps : List (String × β))
    (acc : List (String × List β)) (k : String) :
    lookupA (ps.foldl (fun acc p => addQsVal acc p.1 p.2) acc) k =
      if lookupA acc k = none ∧ (ps.filter (fun q => q.1 = k)) = [] then none
      else some ((lookupA acc k).getD [] ++ (ps.filter (fun q => q.1 = k)).map (·.2)) := by
  induction ps generalizing acc with
  | nil =>
      rcases h : lookupA acc k with _ | vs <;> simp [h]
  | cons p ps ih =>
      simp only [List.foldl_cons]
      rw [ih, lookupA_addQsVal]
      by_cases hpk : p.1 = k
      · rw [if_pos hpk.symm, List.filter_cons_of_pos (by simpa using hpk), hpk]
        rcases h : lookupA acc k with _ | vs <;> simp [h]
      · rw [if_neg (fun hc : k = p.1 => hpk hc.symm),
          List.filter_cons_of_neg (by simpa using hpk)]

lemma qsMatch_eq_find (ps : List (String × String)) (key : String) :
    (match lookupA (ps.foldl (fun acc p => addQsVal acc p.1 p.2) []) key with
      | some (v :: _) => Except.ok (some v)
      | _ => (Except.ok none : Except String (Option String))) =
      Except.ok ((ps.find? (fun nv => nv.1 = key)).map (·.2)) := by
  rw [lookupA_qsFoldAux]
  simp only [lookupA_nil, true_and, Option.getD_none, List.nil_append]
  rw [find?_eq_head_filter]
  rcases hv : ps.filter (fun q => q.1 = key) with _ | ⟨v, vs⟩ <;> rw [hv]
  · rfl
  · rfl

/-- The specification-side query result for a parsed URL: fires exactly when
the lowercase host is in the engine table and the lowercase path contains
`"search"` or the host starts with `duckduckgo`, and returns the value of the
first occurrence of the engine's query parameter (first value wins when the
parameter repeats); absent otherwise. -/
def specQueryOf (p : ParseResult) : Option String :=
  match lookupA engineHosts (lowerStr p.netloc) with
  | some key =>
      if containsSub "search".toList (lowerStr p.path).data
          || startsWithStr (lowerStr p.netloc) "duckduckgo" then
        ((parse_qsl p.query.toList).find? (fun nv => nv.1 = key)).map (·.2)
      else none
  | none => none

/-- Claim C3 (amended): search-query extraction returns a query exactly when
the URL parses, its lowercase host is in the fixed engine-host table, the
lowercase path contains `"search"` or the host starts with `duckduckgo` (the
search-only provider), and the engine's query parameter is present with a
non-blank value; when the parameter is repeated the first value is returned;
otherwise the result is `none`. A URL on which `urlparse` raises (unmatched
IPv6 bracket) propagates that error instead of returning. -/
theorem extract_search_query_amended (url : String) :
    (∀ p, urlparseE url = .ok p →
        extract_search_query url = .ok (specQueryOf p)) ∧
      (∀ e, urlparseE url = .error e →
        extract_search_query url = .error e) := by
  constructor
  · intro p h
    simp only [extract_search_query, h, specQueryOf]
    rcases hL : lookupA engineHosts (lowerStr p.netloc) with _ | key
    · rfl
    · show (if (containsSub "search".toList (lowerStr p.path).data
            || startsWithStr (lowerStr p.netloc) "duckduckgo") = true then _ else _)
          = Except.ok
              (if (containsSub "search".toList (lowerStr p.path).data
                  || startsWithStr (lowerStr p.netloc) "duckduckgo") = true then
                ((parse_qsl p.query.toList).find? (fun nv => nv.1 = key)).map (·.2)
              else none)
      by_cases hc : (containsSub "search".toList (lowerStr p.path).data
          || startsWithStr (lowerStr p.netloc) "duckduckgo") = true
      · rw [if_pos hc, if_pos hc]
        exact qsMatch_eq_find (parse_qsl p.query.toList) key
      · rw [if_neg hc, if_neg hc]
  · intro e h
    simp only [extract_search_query, h]

/-- Witness for the amended C3: a repeated parameter returns its first value;
a search-only provider fires without `"search"` in the path; an unmatched
bracket propagates the parse error. -/
theorem extract_search_query_amended_witness :
    extract_search_query "https://duckduckgo.com/?q=a&q=b" = .ok (some "a") ∧
      extract_search_query "http://[y" = .error "Invalid IPv6 URL" := by
  constructor
  · have h := (extract_search_query_amended "https://duckduckgo.com/?q=a&q=b").1
      ⟨"https", "duckduckgo.com", "/", "q=a&q=b", ""⟩ rfl
    rw [h]
    rfl
  · exact (extract_search_query_amended "http://[y").2 "Invalid IPv6 URL" rfl

/-! ## Visit records and the aggregation pipeline (`build_aggregate`)

A `Record` carries the fields of the normalized visit record that the
aggregation functions read. The timestamp is embedded by its derived
components: `hour` is the UTC hour-of-day, `weekday` the UTC weekday index
(Monday = 0, as in Python `datetime.weekday()`), and `date` the date portion
(first 10 characters) of the ISO timestamp, exactly the values
`build_aggregate`, `hourly_distribution`, `weekday_distribution` and
`group_by_date` recompute from the timestamp string. -/

structure Record where
  url : String
  title : String
  domain : String
  hour : Fin 24
  weekday : Fin 7
  date : String
deriving Repr, DecidableEq

/-! ### Python `Counter` and `most_common`

`Counter(iterable)` counts with dict insertion-order semantics: an existing
key keeps its position and its count is bumped, a new key is appended.
`most_common(n)` sorts by count descending; CPython's sort (and
`heapq.nlargest`) is stable, so equal counts keep first-insertion order. The
sort is modelled by a stable insertion sort by descending count. -/

/-- One dict update `d[k] = d.get(k, 0) + 1`. -/
def bumpKey (k : String) : List (String × Nat) → List (String × Nat)
  | [] => [(k, 1)]
  | p :: ps => if p.1 = k then (p.1, p.2 + 1) :: ps else p :: bumpKey k ps

/-- One `Counter` step over an item projected by `key` (`none` items are the
ones the source's generator filters out). -/
def tallyStep {α : Type} (key : α → Option String) (acc : List (String × Nat))
    (x : α) : List (String × Nat) :=
  match key x with
  | none => acc
  | some k => bumpKey k acc

/-- `Counter(key(x) for x in l if key(x) is not None)` as an insertion-ordered
association list. -/
def tallyBy {α : Type} (key : α → Option String) (l : List α) : List (String × Nat) :=
  l.foldl (tallyStep key) []

/-- Number of items of `l` whose key is `k`. -/
def cntBy {α : Type} (key : α → Option String) (l : List α) (k : String) : Nat :=
  (l.filter (fun x => key x = some k)).length

/-- Index of the first item of `l` whose key is `k` (first occurrence in the
input sequence). -/
def firstIdxBy {α : Type} (key : α → Option String) (l : List α) (k : String) : Nat :=
  l.findIdx (fun x => key x = some k)

/-- Stable insert for the descending-count sort: an element is placed before
the first entry whose count does not exceed it, so equal counts keep input
order. -/
def insertByCount (p : String × Nat) : List (String × Nat) → List (String × Nat)
  | [] => [p]
  | q :: qs => if q.2 > p.2 then q :: insertByCount p qs else p :: q :: qs

/-- Stable sort by descending count (the observable behaviour of CPython's
stable sort with `reverse=True` on counts, and of `heapq.nlargest`). -/
def sortByCountDesc : List (String × Nat) → List (String × Nat)
  | [] => []
  | p :: ps => insertByCount p (sortByCountDesc ps)

/-- `Counter.most_common(n)`. -/
def mostCommon (n : Nat) (t : List (String × Nat)) : List (String × Nat) :=
  (sortByCountDesc t).take n

/-! ### The aggregation functions of `export_vivaldi_history.py` -/

/-- The generator filter `r["domain"] for r in records if r["domain"]`. -/
def domKey (r : Record) : Option String :=
  if r.domain = "" then none else some r.domain

/-- The generator filter `r["url"] for r in records if r["url"]`. -/
def urlKey (r : Record) : Option String :=
  if r.url = "" then none else some r.url

/-- The value `extract_search_query(r["url"])` when it does not raise
(build_aggregate propagates the exception otherwise). -/
def pureQuery (r : Record) : Option String :=
  match extract_search_query r.url with
  | .ok v => v
  | .error _ => none

/-- `dict.setdefault(k, v)`: keep an existing binding, else append. -/
def setdefaultA (m : List (String × String)) (k v : String) : List (String × String) :=
  if (lookupA m k).isSome then m else m ++ [(k, v)]

/-- The `url_to_title` dict of `build_aggregate`: first non-empty title per
non-empty url, in record order. -/
def urlToTitle (rs : List Record) : List (String × String) :=
  rs.foldl
    (fun m r => if r.url ≠ "" ∧ r.title ≠ "" then setdefaultA m r.url r.title else m) []

/-- `v[i] += 1` on a bucket vector. -/
def bumpAt (v : List Nat) (i : Nat) : List Nat := v.set i (v.getD i 0 + 1)

/-- Embedding of `hourly_distribution`: bucket every record by UTC
hour-of-day. -/
def hourly_distribution (rs : List Record) : List Nat :=
  rs.foldl (fun v r => bumpAt v r.hour.val) (List.replicate 24 0)

def weekdayNames : List String := ["Mon", "Tue", "Wed", "Thu", "Fri", "Sat", "Sun"]

/-- Embedding of `weekday_distribution`: the seven buckets keyed by day name
in fixed Monday-first order. -/
def weekday_distribution (rs : List Record) : List (String × Nat) :=
  weekdayNames.zip (rs.foldl (fun v r => bumpAt v r.weekday.val) (List.replicate 7 0))

/-- One `defaultdict(list)` append for `group_by_date`. -/
def addToGroup (g : List (String × List Record)) (d : String) (r : Record) :
    List (String × List Record) :=
  match g with
  | [] => [(d, [r])]
  | p :: ps => if p.1 = d then (p.1, p.2 ++ [r]) :: ps else p :: addToGroup ps d r

/-- Embedding of `group_by_date` (dict insertion order). -/
def group_by_date (rs : List Record) : List (String × List Record) :=
  rs.foldl (fun g r => addToGroup g r.date r) []

/-- Ascending insertion by key, modelling `sorted(d.items())` on distinct
string keys. -/
def insertByKey {β : Type} (p : String × β) : List (String × β) → List (String × β)
  | [] => [p]
  | q :: qs => if q.1 < p.1 then q :: insertByKey p qs else p :: q :: qs

def sortByKey {β : Type} : List (String × β) → List (String × β)
  | [] => []
  | p :: ps => insertByKey p (sortByKey ps)

/-- Error-propagating evaluation of `extract_search_query` over all records,
modelling the consumption of the generator inside `Counter(...)`: the first
`ValueError` aborts `build_aggregate`. -/
def mapQueries : List Record → Except String (List (Option String))
  | [] => .ok []
  | r :: rs =>
      match extract_search_query r.url with
      | .error e => .error e
      | .ok v =>
          match mapQueries rs with
          | .error e => .error e
          | .ok vs => .ok (v :: vs)

structure UrlEntry where
  url : String
  visit_count : Nat
  title : Option String
deriving Repr, DecidableEq

structure DailySummaryEntry where
  date : String
  visits : Nat
  unique_urls : Nat
deriving Repr, DecidableEq

/-- The Aggregate payload of `build_aggregate`, restricted to its derived
statistics fields (the `period` string, which merely formats the two period
endpoints, is not modelled). `top_domains` and `top_search_queries` entries
are (name, count) pairs. -/
structure Aggregate where
  total_visits : Nat
  unique_urls : Nat
  top_domains : List (String × Nat)
  top_urls : List UrlEntry
  daily_summary : List DailySummaryEntry
  hourly_distribution : List Nat
  weekday_distribution : List (String × Nat)
  top_search_queries : List (String × Nat)
deriving Repr, DecidableEq

/-- Embedding of `build_aggregate`. Fails (propagating the `ValueError`)
exactly when search-query extraction raises on some record's url. -/
def build_aggregate (rs : List Record) : Except String Aggregate :=
  match mapQueries rs with
  | .error e => .error e
  | .ok queries =>
      .ok {
        total_visits := rs.length
        unique_urls := (rs.map (·.url)).dedup.length
        top_domains := mostCommon 20 (tallyBy domKey rs)
        top_urls := (mostCommon 50 (tallyBy urlKey rs)).map
          (fun p => ⟨p.1, p.2, lookupA (urlToTitle rs) p.1⟩)
        daily_summary := (sortByKey (group_by_date rs)).map
          (fun p => ⟨p.1, p.2.length, (p.2.map (·.url)).dedup.length⟩)
        hourly_distribution := hourly_distribution rs
        weekday_distribution := weekday_distribution rs
        top_search_queries := mostCommon 50 (tallyBy (fun q => q) queries)
      }

/-! ### Counter lemmas -/

/-- Restriction of a key function to keys outside `seen`; used to describe
the tail of a tally whose head key has been split off. -/
def restrictKey {α : Type} (key : α → Option String) (seen : List String) :
    α → Option String :=
  fun x =>
    match key x with
    | some k => if k ∈ seen then none else some k
    | none => none

lemma restrictKey_eq_some {α : Type} {key : α → Option String} {seen : List String}
    {x : α} {m : String} :
    restrictKey key seen x = some m ↔ key x = some m ∧ m ∉ seen := by
  constructor
  · intro h
    rcases hk : key x with _ | k
    · simp [restrictKey, hk] at h
    · by_cases hm : k ∈ seen
      · simp [restrictKey, hk, hm] at h
      · simp only [restrictKey, hk, if_neg hm, Option.some.injEq] at h
        subst h
        exact ⟨rfl, hm⟩
  · rintro ⟨h1, h2⟩
    simp [restrictKey, h1, h2]

lemma cntBy_cons {α : Type} (key : α → Option String) (x : α) (xs : List α) (k : String) :
    cntBy key (x :: xs) k = (if key x = some k then 1 else 0) + cntBy key xs k := by
  simp only [cntBy, List.filter_cons]
  by_cases h : key x = some k <;> simp [h, Nat.add_comm]

lemma restrict_decide_eq {α : Type} (key : α → Option String) (seen : List String)
    (k : String) (hk : k ∉ seen) (x : α) :
    decide (restrictKey key seen x = some k) = decide (key x = some k) := by
  by_cases h : key x = some k
  · rw [decide_eq_true (restrictKey_eq_some.mpr ⟨h, hk⟩), decide_eq_true h]
  · rw [decide_eq_false (fun hc => h (restrictKey_eq_some.mp hc).1), decide_eq_false h]

lemma cntBy_restrict {α : Type} (key : α → Option String) (seen : List String)
    (l : List α) (k : String) (hk : k ∉ seen) :
    cntBy (restrictKey key seen) l k = cntBy key l k := by
  unfold cntBy
  congr 1
  apply List.filter_congr
  intro x _
  exact restrict_decide_eq key seen k hk x

lemma firstIdxBy_restrict {α : Type} (key : α → Option String) (seen : List String)
    (l : List α) (k : String) (hk : k ∉ seen) :
    firstIdxBy (restrictKey key seen) l k = firstIdxBy key l k := by
  unfold firstIdxBy
  have hfe : (fun x => decide (restrictKey key seen x = some k))
      = (fun x => decide (key x = some k)) := by
    funext x
    exact restrict_decide_eq key seen k hk x
  rw [hfe]

lemma restrictKey_restrictKey {α : Type} (key : α → Option String) (seen : List String)
    (k : String) :
    restrictKey (restrictKey key seen) [k] = restrictKey key (seen ++ [k]) := by
  funext x
  rcases hk : key x with _ | m
  · simp [restrictKey, hk]
  · by_cases hm : m ∈ seen
    · simp [restrictKey, hk, hm]
    · by_cases hmk : m = k
      · subst hmk
        simp [restrictKey, hk, hm]
      · simp [restrictKey, hk, hm, hmk]

lemma bumpKey_not_mem (k : String) (acc : List (String × Nat))
    (h : k ∉ acc.map Prod.fst) : bumpKey k acc = acc ++ [(k, 1)] := by
  induction acc with
  | nil => rfl
  | cons p ps ih =>
      simp only [List.map_cons, List.mem_cons, not_or] at h
      simp only [bumpKey, if_neg (fun hc : p.1 = k => h.1 hc.symm), List.cons_append]
      rw [ih h.2]

lemma bumpKey_keys_of_mem (k : String) (acc : List (String × Nat))
    (h : k ∈ acc.map Prod.fst) :
    (bumpKey k acc).map Prod.fst = acc.map Prod.fst := by
  induction acc with
  | nil => simp at h
  | cons p ps ih =>
      by_cases hp : p.1 = k
      · simp [bumpKey, hp]
      · simp only [List.map_cons, List.mem_cons] at h
        rcases h with h | h
        · exact absurd h.symm hp
        · simp only [bumpKey, if_neg hp, List.map_cons]
          rw [ih h]

lemma bumpKey_map_cnt (k : String) (acc : List (String × Nat))
    (hn : (acc.map Prod.fst).Nodup) (hm : k ∈ acc.map Prod.fst) (f : String → Nat) :
    (bumpKey k acc).map (fun p => (p.1, p.2 + f p.1))
      = acc.map (fun p => (p.1, p.2 + (f p.1 + if p.1 = k then 1 else 0))) := by
  induction acc with
  | nil => simp at hm
  | cons p ps ih =>
      simp only [List.map_cons, List.nodup_cons] at hn
      by_cases hp : p.1 = k
      · simp only [bumpKey, if_pos hp, List.map_cons, if_pos hp]
        congr 1
        · simp only [Prod.mk.injEq, true_and]
          omega
        · apply List.map_congr_left
          intro q hq
          have hqk : ¬ q.1 = k := by
            intro hc
            exact hn.1 (by
              rw [hp, ← hc]
              exact List.mem_map_of_mem Prod.fst hq)
          simp [hqk]
      · simp only [List.map_cons, List.mem_cons] at hm
        rcases hm with hm | hm
        · exact absurd hm.symm hp
        · simp only [bumpKey, if_neg hp, List.map_cons, if_neg hp]
          rw [ih hn.2 hm]
          simp

lemma tallyBy_cons_of_none {α : Type} {key : α → Option String} {x : α} {xs : List α}
    (h : key x = none) : tallyBy key (x :: xs) = tallyBy key xs := by
  show List.foldl (tallyStep key) (tallyStep key [] x) xs = _
  rw [show tallyStep key [] x = [] from by simp [tallyStep, h]]
  rfl

lemma tallyBy_cons_eq_foldl {α : Type} {key : α → Option String} {x : α} {xs : List α}
    {k : String} (h : key x = some k) :
    tallyBy key (x :: xs) = xs.foldl (tallyStep key) [(k, 1)] := by
  show List.foldl (tallyStep key) (tallyStep key [] x) xs = _
  rw [show tallyStep key [] x = [(k, 1)] from by simp [tallyStep, h, bumpKey]]

lemma tallyAux_decompose {α : Type} :
    ∀ (l : List α) (key : α → Option String) (acc : List (String × Nat)),
      (acc.map Prod.fst).Nodup →
      l.foldl (tallyStep key) acc =
        acc.map (fun p => (p.1, p.2 + cntBy key l p.1))
          ++ tallyBy (restrictKey key (acc.map Prod.fst)) l := by
  intro l
  induction l with
  | nil =>
      intro key acc _
      simp [cntBy, tallyBy]
  | cons x xs ih =>
      intro key acc h
      rw [List.foldl_cons]
      rcases hk : key x with _ | k
      · have hrx : restrictKey key (acc.map Prod.fst) x = none := by
          simp [restrictKey, hk]
        rw [show tallyStep key acc x = acc from by simp [tallyStep, hk]]
        rw [ih key acc h, tallyBy_cons_of_none hrx]
        congr 1
        apply List.map_congr_left
        intro p _
        rw [cntBy_cons, hk]
        simp
      · by_cases hmem : k ∈ acc.map Prod.fst
        · have hrx : restrictKey key (acc.map Prod.fst) x = none := by
            simp [restrictKey, hk, hmem]
          rw [show tallyStep key acc x = bumpKey k acc from by simp [tallyStep, hk]]
          rw [ih key (bumpKey k acc) (by rw [bumpKey_keys_of_mem k acc hmem]; exact h)]
          rw [bumpKey_keys_of_mem k acc hmem, tallyBy_cons_of_none hrx]
          congr 1
          rw [bumpKey_map_cnt k acc h hmem (fun s => cntBy key xs s)]
          apply List.map_congr_left
          intro p _
          rw [cntBy_cons, hk]
          by_cases hpk : p.1 = k
          · have hkp : some k = some p.1 := by rw [hpk]
            rw [if_pos hpk, if_pos hkp]
            simp only [Prod.mk.injEq, true_and]
            omega
          · have hkp : ¬ (some k = some p.1) := by
              intro hc
              cases hc
              exact hpk rfl
            rw [if_neg hpk, if_neg hkp]
            simp only [Prod.mk.injEq, true_and]
            omega
        · rw [show tallyStep key acc x = acc ++ [(k, 1)] from by
              simp [tallyStep, hk, bumpKey_not_mem k acc hmem]]
          have hnod : ((acc ++ [(k, 1)]).map Prod.fst).Nodup := by
            rw [List.map_append]
            simp only [List.map_cons, List.map_nil]
            rw [List.nodup_append]
            exact ⟨h, List.nodup_singleton k, by simpa using hmem⟩
          rw [ih key (acc ++ [(k, 1)]) hnod]
          have hseen : (acc ++ [(k, 1)]).map Prod.fst = acc.map Prod.fst ++ [k] := by
            simp
          rw [hseen, List.map_append]
          have hrx : restrictKey key (acc.map Prod.fst) x = some k :=
            restrictKey_eq_some.mpr ⟨hk, hmem⟩
          have htail : tallyBy (restrictKey key (acc.map Prod.fst)) (x :: xs)
              = (k, 1 + cntBy key xs k)
                :: tallyBy (restrictKey key (acc.map Prod.fst ++ [k])) xs := by
            rw [tallyBy_cons_eq_foldl hrx]
            rw [ih (restrictKey key (acc.map Prod.fst)) [(k, 1)] (by simp)]
            rw [show ([((k : String), (1 : Nat))].map Prod.fst) = [k] from rfl]
            rw [restrictKey_restrictKey]
            simp only [List.map_cons, List.map_nil, List.singleton_append]
            rw [cntBy_restrict key (acc.map Prod.fst) xs k hmem]
          rw [htail]
          have hmap : acc.map (fun p => (p.1, p.2 + cntBy key (x :: xs) p.1))
              = acc.map (fun p => (p.1, p.2 + cntBy key xs p.1)) := by
            apply List.map_congr_left
            intro p hp
            rw [cntBy_cons, hk]
            have hpk : ¬ (some k = some p.1) := by
              intro hc
              cases hc
              exact hmem (List.mem_map_of_mem Prod.fst hp)
            simp [hpk]
          rw [hmap]
          have hcnt1 : (1 : Nat) + cntBy key xs k = cntBy key (x :: xs) k := by
            rw [cntBy_cons, hk]
            simp
          simp only [List.map_cons, List.map_nil, List.append_assoc, List.cons_append,
            List.nil_append, hcnt1]

lemma tallyBy_cons_of_some {α : Type} {key : α → Option String} {x : α} {xs : List α}
    {k : String} (h : key x = some k) :
    tallyBy key (x :: xs)
      = (k, cntBy key (x :: xs) k) :: tallyBy (restrictKey key [k]) xs := by
  rw [tallyBy_cons_eq_foldl h]
  rw [tallyAux_decompose xs key [(k, 1)] (by simp)]
  rw [show ([((k : String), (1 : Nat))].map Prod.fst) = [k] from rfl]
  simp only [List.map_cons, List.map_nil, List.singleton_append]
  rw [show (1 : Nat) + cntBy key xs k = cntBy key (x :: xs) k from by
    rw [cntBy_cons, h]; simp]

lemma tallyBy_mem_spec {α : Type} :
    ∀ (l : List α) (key : α → Option String), ∀ p ∈ tallyBy key l,
      (∃ x ∈ l, key x = some p.1) ∧ p.2 = cntBy key l p.1 := by
  intro l
  induction l with
  | nil =>
      intro key p hp
      simp [tallyBy] at hp
  | cons x xs ih =>
      intro key p hp
      rcases hk : key x with _ | k
      · rw [tallyBy_cons_of_none hk] at hp
        obtain ⟨⟨y, hy, hky⟩, hcnt⟩ := ih key p hp
        refine ⟨⟨y, List.mem_cons_of_mem x hy, hky⟩, ?_⟩
        rw [cntBy_cons, hk]
        simpa using hcnt
      · rw [tallyBy_cons_of_some hk] at hp
        rcases List.mem_cons.mp hp with hp | hp
        · rw [hp]
          exact ⟨⟨x, List.mem_cons_self x xs, hk⟩, rfl⟩
        · obtain ⟨⟨y, hy, hky⟩, hcnt⟩ := ih (restrictKey key [k]) p hp
          obtain ⟨hky', hnk⟩ := restrictKey_eq_some.mp hky
          have hpk : ¬ p.1 = k := by simpa using hnk
          refine ⟨⟨y, List.mem_cons_of_mem x hy, hky'⟩, ?_⟩
          rw [cntBy_cons, hk, hcnt, cntBy_restrict key [k] xs p.1 hnk]
          have hkp : ¬ (some k = some p.1) := by
            intro hc
            cases hc
            exact hpk rfl
          simp [hkp]

lemma tallyBy_keys_nodup {α : Type} :
    ∀ (l : List α) (key : α → Option String), ((tallyBy key l).map Prod.fst).Nodup := by
  intro l
  induction l with
  | nil =>
      intro key
      simp [tallyBy]
  | cons x xs ih =>
      intro key
      rcases hk : key x with _ | k
      · rw [tallyBy_cons_of_none hk]
        exact ih key
      · rw [tallyBy_cons_of_some hk]
        simp only [List.map_cons, List.nodup_cons]
        constructor
        · intro hmem
          obtain ⟨p, hp, hpk⟩ := List.mem_map.mp hmem
          obtain ⟨⟨y, _, hky⟩, _⟩ := tallyBy_mem_spec xs (restrictKey key [k]) p hp
          have hnot := (restrictKey_eq_some.mp hky).2
          rw [hpk] at hnot
          exact hnot (List.mem_singleton_self k)
        · exact ih (restrictKey key [k])

lemma mem_tallyBy_keys {α : Type} :
    ∀ (l : List α) (key : α → Option String) (k : String),
      (∃ x ∈ l, key x = some k) → k ∈ (tallyBy key l).map Prod.fst := by
  intro l
  induction l with
  | nil =>
      intro key k h
      obtain ⟨x, hx, _⟩ := h
      exact absurd hx (List.not_mem_nil x)
  | cons x xs ih =>
      intro key k h
      rcases hk : key x with _ | k0
      · rw [tallyBy_cons_of_none hk]
        obtain ⟨y, hy, hky⟩ := h
        rcases List.mem_cons.mp hy with hy0 | hy'
        · rw [hy0, hk] at hky
          cases hky
        · exact ih key k ⟨y, hy', hky⟩
      · rw [tallyBy_cons_of_some hk]
        by_cases hkk : k = k0
        · rw [hkk]
          simp
        · obtain ⟨y, hy, hky⟩ := h
          rcases List.mem_cons.mp hy with hy0 | hy'
          · rw [hy0, hk] at hky
            cases hky
            exact absurd rfl hkk
          · have hres : restrictKey key [k0] y = some k :=
              restrictKey_eq_some.mpr ⟨hky, by simpa using hkk⟩
            have hrec := ih (restrictKey key [k0]) k ⟨y, hy', hres⟩
            simp only [List.map_cons]
            exact List.mem_cons_of_mem _ hrec

lemma tallyBy_pairwise_firstIdx {α : Type} :
    ∀ (l : List α) (key : α → Option String),
      (tallyBy key l).Pairwise (fun p q => firstIdxBy key l p.1 < firstIdxBy key l q.1) := by
  intro l
  induction l with
  | nil =>
      intro key
      simp [tallyBy]
  | cons x xs ih =>
      intro key
      rcases hk : key x with _ | k
      · rw [tallyBy_cons_of_none hk]
        refine List.Pairwise.imp_of_mem ?_ (ih key)
        intro p q _ _ hlt
        have e1 : ∀ m, firstIdxBy key (x :: xs) m = firstIdxBy key xs m + 1 := by
          intro m
          unfold firstIdxBy
          rw [List.findIdx_cons]
          simp [hk]
        rw [e1, e1]
        omega
      · rw [tallyBy_cons_of_some hk]
        have e0 : firstIdxBy key (x :: xs) k = 0 := by
          unfold firstIdxBy
          rw [List.findIdx_cons]
          simp [hk]
        have e1 : ∀ m, ¬ m = k → firstIdxBy key (x :: xs) m = firstIdxBy key xs m + 1 := by
          intro m hm
          unfold firstIdxBy
          rw [List.findIdx_cons]
          have : ¬ (key x = some m) := by
            rw [hk]
            intro hc
            cases hc
            exact hm rfl
          simp [this]
        apply List.Pairwise.cons
        · intro q hq
          obtain ⟨⟨y, _, hky⟩, _⟩ := tallyBy_mem_spec xs (restrictKey key [k]) q hq
          have hqk : ¬ q.1 = k := by simpa using (restrictKey_eq_some.mp hky).2
          show firstIdxBy key (x :: xs) k < firstIdxBy key (x :: xs) q.1
          rw [e0, e1 q.1 hqk]
          omega
        · refine List.Pairwise.imp_of_mem ?_ (ih (restrictKey key [k]))
          intro p q hp hq hlt
          obtain ⟨⟨y1, _, hky1⟩, _⟩ := tallyBy_mem_spec xs (restrictKey key [k]) p hp
          obtain ⟨⟨y2, _, hky2⟩, _⟩ := tallyBy_mem_spec xs (restrictKey key [k]) q hq
          have hp1 := (restrictKey_eq_some.mp hky1).2
          have hq1 := (restrictKey_eq_some.mp hky2).2
          rw [firstIdxBy_restrict key [k] xs p.1 hp1,
            firstIdxBy_restrict key [k] xs q.1 hq1] at hlt
          rw [e1 p.1 (by simpa using hp1), e1 q.1 (by simpa using hq1)]
          omega

lemma mem_tallyBy_pair {α : Type} (l : List α) (key : α → Option String) (k : String)
    (h : ∃ x ∈ l, key x = some k) : (k, cntBy key l k) ∈ tallyBy key l := by
  obtain ⟨p, hp, hpk⟩ := List.mem_map.mp (mem_tallyBy_keys l key k h)
  obtain ⟨_, hcnt⟩ := tallyBy_mem_spec l key p hp
  have : p = (k, cntBy key l k) := by
    rcases p with ⟨p1, p2⟩
    simp only at hpk hcnt
    rw [hpk] at hcnt ⊢
    rw [hcnt]
  rw [← this]
  exact hp

lemma tallyBy_length {α : Type} (key : α → Option String) (l : List α) :
    (tallyBy key l).length = (l.filterMap key).dedup.length := by
  have h1 : ((tallyBy key l).map Prod.fst).toFinset = (l.filterMap key).toFinset := by
    ext s
    simp only [List.mem_toFinset, List.mem_map, List.mem_filterMap]
    constructor
    · rintro ⟨p, hp, rfl⟩
      obtain ⟨⟨y, hy, hky⟩, _⟩ := tallyBy_mem_spec l key p hp
      exact ⟨y, hy, hky⟩
    · rintro ⟨y, hy, hky⟩
      obtain ⟨p, hp, hps⟩ := List.mem_map.mp (mem_tallyBy_keys l key s ⟨y, hy, hky⟩)
      exact ⟨p, hp, hps⟩
  have h2 := List.toFinset_card_of_nodup (tallyBy_keys_nodup l key)
  calc (tallyBy key l).length
      = ((tallyBy key l).map Prod.fst).length := (List.length_map _ _).symm
    _ = ((tallyBy key l).map Prod.fst).toFinset.card := h2.symm
    _ = (l.filterMap key).toFinset.card := by rw [h1]
    _ = (l.filterMap key).dedup.length := List.card_toFinset _

/-! ### Stable-sort lemmas -/

lemma insertByCount_perm (p : String × Nat) (ys : List (String × Nat)) :
    (insertByCount p ys).Perm (p :: ys) := by
  induction ys with
  | nil => exact List.Perm.refl _
  | cons q qs ih =>
      unfold insertByCount
      by_cases h : q.2 > p.2
      · rw [if_pos h]
        exact (ih.cons q).trans (List.Perm.swap p q qs)
      · rw [if_neg h]

lemma sortByCountDesc_perm (t : List (String × Nat)) :
    (sortByCountDesc t).Perm t := by
  induction t with
  | nil => exact List.Perm.refl _
  | cons p ps ih =>
      unfold sortByCountDesc
      exact (insertByCount_perm p (sortByCountDesc ps)).trans (ih.cons p)

lemma insertByCount_pairwise_ge (p : String × Nat) (ys : List (String × Nat))
    (hys : ys.Pairwise (fun a b => b.2 ≤ a.2)) :
    (insertByCount p ys).Pairwise (fun a b => b.2 ≤ a.2) := by
  induction ys with
  | nil => simp [insertByCount]
  | cons q qs ih =>
      obtain ⟨hq, hqs⟩ := List.pairwise_cons.mp hys
      unfold insertByCount
      by_cases h : q.2 > p.2
      · rw [if_pos h]
        apply List.pairwise_cons.mpr
        constructor
        · intro b hb
          rcases List.mem_cons.mp ((insertByCount_perm p qs).mem_iff.mp hb) with hb0 | hb'
          · rw [hb0]
            omega
          · exact hq b hb'
        · exact ih hqs
      · rw [if_neg h]
        apply List.pairwise_cons.mpr
        refine ⟨?_, hys⟩
        intro b hb
        rcases List.mem_cons.mp hb with hb0 | hb'
        · rw [hb0]
          omega
        · have := hq b hb'
          omega

lemma sortByCountDesc_pairwise_ge (t : List (String × Nat)) :
    (sortByCountDesc t).Pairwise (fun a b => b.2 ≤ a.2) := by
  induction t with
  | nil => simp [sortByCountDesc]
  | cons p ps ih =>
      unfold sortByCountDesc
      exact insertByCount_pairwise_ge p (sortByCountDesc ps) ih

lemma insertByCount_pairwise_stable {S : (String × Nat) → (String × Nat) → Prop}
    (hvac : ∀ a b : String × Nat, a.2 < b.2 → S b a) (p : String × Nat)
    (ys : List (String × Nat)) (hall : ∀ q ∈ ys, S p q) (hys : ys.Pairwise S) :
    (insertByCount p ys).Pairwise S := by
  induction ys with
  | nil => simp [insertByCount]
  | cons q qs ih =>
      obtain ⟨hq, hqs⟩ := List.pairwise_cons.mp hys
      unfold insertByCount
      by_cases h : q.2 > p.2
      · rw [if_pos h]
        apply List.pairwise_cons.mpr
        constructor
        · intro b hb
          rcases List.mem_cons.mp ((insertByCount_perm p qs).mem_iff.mp hb) with hb0 | hb'
          · rw [hb0]
            exact hvac p q h
          · exact hq b hb'
        · exact ih (fun q' hq' => hall q' (List.mem_cons_of_mem _ hq')) hqs
      · rw [if_neg h]
        exact List.pairwise_cons.mpr ⟨fun b hb => hall b hb, hys⟩

lemma sortByCountDesc_pairwise_stable {S : (String × Nat) → (String × Nat) → Prop}
    (hvac : ∀ a b : String × Nat, a.2 < b.2 → S b a) (t : List (String × Nat))
    (ht : t.Pairwise S) : (sortByCountDesc t).Pairwise S := by
  induction t with
  | nil => simp [sortByCountDesc]
  | cons p ps ih =>
      obtain ⟨hp, hps⟩ := List.pairwise_cons.mp ht
      unfold sortByCountDesc
      exact insertByCount_pairwise_stable hvac p (sortByCountDesc ps)
        (fun q hq => hp q ((sortByCountDesc_perm ps).mem_iff.mp hq)) (ih hps)

/-! ### The ranking contract of `most_common` -/

/-- The specification of a ranked top-`n` list computed over the full input:
at most `n` entries, and exactly `min n (number of distinct keys)`; counts are
the full counts over the entire input; ordered by descending count with ties
broken by order of first occurrence in the input sequence; and every key of
the input that was left out is ranked strictly after every listed entry
(higher count wins, equal count is decided by first occurrence), so the cap
truncates only the final ranking, never the counting. -/
def rankedOk {α : Type} (key : α → Option String) (rs : List α) (n : Nat)
    (top : List (String × Nat)) : Prop :=
  top.length = min n ((rs.filterMap key).dedup.length) ∧
  top.Pairwise (fun p q => q.2 ≤ p.2) ∧
  top.Pairwise (fun p q => p.2 = q.2 → firstIdxBy key rs p.1 < firstIdxBy key rs q.1) ∧
  (∀ p ∈ top, p.2 = cntBy key rs p.1) ∧
  (∀ k, (∃ x ∈ rs, key x = some k) → k ∉ top.map Prod.fst → ∀ p ∈ top,
    cntBy key rs k < p.2 ∨
      (cntBy key rs k = p.2 ∧ firstIdxBy key rs p.1 < firstIdxBy key rs k))

lemma mostCommon_rankedOk {α : Type} (key : α → Option String) (rs : List α) (n : Nat) :
    rankedOk key rs n (mostCommon n (tallyBy key rs)) := by
  have hperm := sortByCountDesc_perm (tallyBy key rs)
  have hsorted := sortByCountDesc_pairwise_ge (tallyBy key rs)
  have htie : (sortByCountDesc (tallyBy key rs)).Pairwise
      (fun p q => p.2 = q.2 → firstIdxBy key rs p.1 < firstIdxBy key rs q.1) := by
    apply sortByCountDesc_pairwise_stable
    · intro a b hab hcond
      omega
    · refine (tallyBy_pairwise_firstIdx rs key).imp ?_
      intro a b h _
      exact h
  refine ⟨?_, ?_, ?_, ?_, ?_⟩
  · rw [mostCommon, List.length_take, hperm.length_eq, tallyBy_length]
  · exact hsorted.sublist (List.take_sublist n _)
  · exact htie.sublist (List.take_sublist n _)
  · intro p hp
    have hp' : p ∈ tallyBy key rs :=
      hperm.mem_iff.mp ((List.take_sublist n _).mem hp)
    exact (tallyBy_mem_spec rs key p hp').2
  · intro k hocc hnot p hp
    have hcomb : (sortByCountDesc (tallyBy key rs)).Pairwise
        (fun p q => q.2 ≤ p.2 ∧ (p.2 = q.2 → firstIdxBy key rs p.1 < firstIdxBy key rs q.1)) :=
      hsorted.and htie
    have hkpair : (k, cntBy key rs k) ∈ sortByCountDesc (tallyBy key rs) :=
      hperm.mem_iff.mpr (mem_tallyBy_pair rs key k hocc)
    have hsplit := (List.take_append_drop n (sortByCountDesc (tallyBy key rs)))
    have hkdrop : (k, cntBy key rs k) ∈ (sortByCountDesc (tallyBy key rs)).drop n := by
      rcases List.mem_append.mp (by rw [hsplit]; exact hkpair) with hmem | hmem
      · exact absurd (List.mem_map_of_mem Prod.fst hmem) hnot
      · exact hmem
    have hcomb2 : (List.take n (sortByCountDesc (tallyBy key rs))
        ++ List.drop n (sortByCountDesc (tallyBy key rs))).Pairwise
        (fun p q => q.2 ≤ p.2 ∧ (p.2 = q.2 → firstIdxBy key rs p.1 < firstIdxBy key rs q.1)) := by
      rw [List.take_append_drop]
      exact hcomb
    have hres := (List.pairwise_append.mp hcomb2).2.2 p hp (k, cntBy key rs k) hkdrop
    rcases hres with ⟨hle, htieimp⟩
    rcases Nat.lt_or_ge (cntBy key rs k) p.2 with hlt | hge
    · exact Or.inl hlt
    · have heq : p.2 = cntBy key rs k := by omega
      exact Or.inr ⟨heq.symm, htieimp heq⟩

lemma mapQueries_eq_map :
    ∀ (rs : List Record) (qs : List (Option String)),
      mapQueries rs = .ok qs → qs = rs.map pureQuery := by
  intro rs
  induction rs with
  | nil =>
      intro qs h
      injection h with h'
      rw [← h']
      rfl
  | cons r rs ih =>
      intro qs h
      unfold mapQueries at h
      rcases he : extract_search_query r.url with e | v
      · rw [he] at h
        cases h
      · rw [he] at h
        rcases hm : mapQueries rs with e | vs
        · rw [hm] at h
          cases h
        · rw [hm] at h
          injection h with h'
          rw [← h', List.map_cons]
          congr 1
          · unfold pureQuery
            rw [he]
          · exact ih vs hm

lemma tallyBy_map {α β : Type} (key : β → Option String) (f : α → β) (l : List α) :
    tallyBy key (l.map f) = tallyBy (fun x => key (f x)) l := by
  unfold tallyBy
  rw [List.foldl_map]
  rfl

/-- Claim C4: in every Aggregate produced by `build_aggregate`, the three top
lists are ordered by descending count with ties broken by order of first
occurrence in the input record sequence, their counts are the full counts
over all records, the caps (20 / 50 / 50) are applied after ranking over the
full counts (every unlisted item ranks strictly after every listed one), and
a list is shorter than its cap only when there are fewer distinct items. -/
theorem build_aggregate_ranking (rs : List Record) (a : Aggregate)
    (h : build_aggregate rs = .ok a) :
    rankedOk domKey rs 20 a.top_domains ∧
      rankedOk urlKey rs 50 (a.top_urls.map (fun e => (e.url, e.visit_count))) ∧
      rankedOk pureQuery rs 50 a.top_search_queries := by
  unfold build_aggregate at h
  rcases hm : mapQueries rs with e | queries
  · rw [hm] at h
    cases h
  · rw [hm] at h
    cases h
    refine ⟨mostCommon_rankedOk domKey rs 20, ?_, ?_⟩
    · have hmaps : ((mostCommon 50 (tallyBy urlKey rs)).map
          (fun p => (⟨p.1, p.2, lookupA (urlToTitle rs) p.1⟩ : UrlEntry))).map
          (fun e => (e.url, e.visit_count)) = mostCommon 50 (tallyBy urlKey rs) := by
        rw [List.map_map]
        have hcomp : ((fun (e : UrlEntry) => (e.url, e.visit_count))
            ∘ (fun p : String × Nat =>
              (⟨p.1, p.2, lookupA (urlToTitle rs) p.1⟩ : UrlEntry))) = id := by
          funext p
          rfl
        rw [hcomp, List.map_id]
      show rankedOk urlKey rs 50 (((mostCommon 50 (tallyBy urlKey rs)).map
        (fun p => (⟨p.1, p.2, lookupA (urlToTitle rs) p.1⟩ : UrlEntry))).map
        (fun e => (e.url, e.visit_count)))
      rw [hmaps]
      exact mostCommon_rankedOk urlKey rs 50
    · show rankedOk pureQuery rs 50 (mostCommon 50 (tallyBy (fun q => q) queries))
      rw [mapQueries_eq_map rs queries hm, tallyBy_map]
      exact mostCommon_rankedOk pureQuery rs 50

/-- Concrete input for the C4 witness: a count tie between `d2` and `d3`
(resolved by first occurrence) and a url visited twice. -/
def c4rs : List Record :=
  [⟨"a", "", "d2", 0, 0, "2024-01-01"⟩,
   ⟨"b", "", "d3", 1, 1, "2024-01-01"⟩,
   ⟨"a", "", "d2", 2, 2, "2024-01-02"⟩]

/-- Witness for C4: the ranking contract holds on a concrete record list. -/
theorem build_aggregate_ranking_witness :
    rankedOk domKey c4rs 20
        (((build_aggregate c4rs).toOption.get (by rfl)).top_domains) ∧
      rankedOk urlKey c4rs 50
        ((((build_aggregate c4rs).toOption.get (by rfl)).top_urls).map
          (fun e => (e.url, e.visit_count))) ∧
      rankedOk pureQuery c4rs 50
        (((build_aggregate c4rs).toOption.get (by rfl)).top_search_queries) :=
  build_aggregate_ranking c4rs ((build_aggregate c4rs).toOption.get (by rfl)) rfl

/-! ### First-seen titles (claim C8) -/

lemma lookupA_append {α : Type} (m1 m2 : List (String × α)) (k : String) :
    lookupA (m1 ++ m2) k = (lookupA m1 k).or (lookupA m2 k) := by
  induction m1 with
  | nil => simp [lookupA_nil]
  | cons p ps ih =>
      rw [List.cons_append, lookupA_cons, lookupA_cons]
      by_cases h : p.1 = k
      · rw [if_pos h, if_pos h]
        rfl
      · rw [if_neg h, if_neg h, ih]

lemma lookupA_setdefaultA_self (m : List (String × String)) (k v : String) :
    lookupA (setdefaultA m k v) k = (lookupA m k).or (some v) := by
  unfold setdefaultA
  rcases h : lookupA m k with _ | w
  · rw [if_neg (by simp), lookupA_append, h, lookupA_cons, if_pos rfl]
  · rw [if_pos (by rfl), h]
    rfl

lemma lookupA_setdefaultA_other (m : List (String × String)) (k v u : String)
    (h : ¬ k = u) : lookupA (setdefaultA m k v) u = lookupA m u := by
  unfold setdefaultA
  split
  · rfl
  · rw [lookupA_append]
    rw [show lookupA [(k, v)] u = none from by
      rw [lookupA_cons, if_neg h, lookupA_nil]]
    rcases lookupA m u with _ | w <;> rfl

lemma urlToTitle_lookup (rs : List Record) (u : String) (hu : ¬ u = "") :
    lookupA (urlToTitle rs) u
      = (rs.find? (fun r => r.url = u ∧ ¬ r.title = "")).map (·.title) := by
  suffices hgen : ∀ m : List (String × String),
      lookupA (rs.foldl
        (fun m r => if r.url ≠ "" ∧ r.title ≠ "" then setdefaultA m r.url r.title else m) m) u
        = (lookupA m u).or ((rs.find? (fun r => r.url = u ∧ ¬ r.title = "")).map (·.title)) by
    have h0 := hgen []
    rw [lookupA_nil] at h0
    rw [urlToTitle, h0]
    rcases (rs.find? (fun r => r.url = u ∧ ¬ r.title = "")).map (·.title) with _ | t <;> rfl
  intro m
  induction rs generalizing m with
  | nil =>
      rw [List.foldl_nil, List.find?_nil]
      rcases lookupA m u with _ | w <;> rfl
  | cons r rs ih =>
      rw [List.foldl_cons]
      by_cases hc : r.url ≠ "" ∧ r.title ≠ ""
      · rw [if_pos hc]
        by_cases hru : r.url = u
        · have hfind : List.find? (fun r : Record => decide (r.url = u ∧ ¬ r.title = ""))
              (r :: rs) = some r :=
            List.find?_cons_of_pos rs
              (by simp only [decide_eq_true_eq]; exact ⟨hru, hc.2⟩)
          rw [hfind, ih (setdefaultA m r.url r.title)]
          rw [hru] at *
          rw [lookupA_setdefaultA_self m u r.title]
          rcases lookupA m u with _ | w <;> rfl
        · have hfind : List.find? (fun r : Record => decide (r.url = u ∧ ¬ r.title = ""))
              (r :: rs)
              = List.find? (fun r : Record => decide (r.url = u ∧ ¬ r.title = "")) rs :=
            List.find?_cons_of_neg rs
              (by simp only [decide_eq_true_eq]; intro hcon; exact hru hcon.1)
          rw [hfind, ih (setdefaultA m r.url r.title),
            lookupA_setdefaultA_other m r.url r.title u (fun hc2 => hru hc2)]
      · rw [if_neg hc]
        have hfind : List.find? (fun r : Record => decide (r.url = u ∧ ¬ r.title = ""))
            (r :: rs)
            = List.find? (fun r : Record => decide (r.url = u ∧ ¬ r.title = "")) rs :=
          List.find?_cons_of_neg rs (by
            simp only [decide_eq_true_eq]
            intro hcon
            rcases Decidable.not_and_iff_or_not.mp hc with h1 | h2
            · rw [not_not] at h1
              rw [h1] at hcon
              exact hu hcon.1.symm
            · rw [not_not] at h2
              exact hcon.2 h2)
        rw [hfind, ih m]

/-- Claim C8: the title attached to a url's `top_urls` entry is the title of
the first record for that url, in chronological (input) order, having a
non-empty title; later titles for the same url are ignored (absent when no
record for the url carries a non-empty title). -/
theorem build_aggregate_first_title (rs : List Record) (a : Aggregate)
    (h : build_aggregate rs = .ok a) :
    ∀ e ∈ a.top_urls,
      e.title = (rs.find? (fun r => r.url = e.url ∧ ¬ r.title = "")).map (·.title) := by
  unfold build_aggregate at h
  rcases hm : mapQueries rs with e0 | queries
  · rw [hm] at h
    cases h
  · rw [hm] at h
    cases h
    intro e he
    obtain ⟨p, hp, hpe⟩ := List.mem_map.mp he
    have hp' : p ∈ tallyBy urlKey rs :=
      (sortByCountDesc_perm _).mem_iff.mp ((List.take_sublist _ _).mem hp)
    obtain ⟨⟨r0, _, hr0⟩, _⟩ := tallyBy_mem_spec rs urlKey p hp'
    have hu : ¬ p.1 = "" := by
      unfold urlKey at hr0
      by_cases hd : r0.url = ""
      · rw [if_pos hd] at hr0
        cases hr0
      · rw [if_neg hd] at hr0
        injection hr0 with hr0'
        intro hc
        exact hd (hr0'.trans hc)
    rw [← hpe]
    show lookupA (urlToTitle rs) p.1 = _
    exact urlToTitle_lookup rs p.1 hu

/-- Concrete input for the C8 witness: two records for url `u` in order with
different non-empty titles `A` then `B`. -/
def c8rs : List Record :=
  [⟨"u", "A", "d", 0, 0, "2024-01-01"⟩,
   ⟨"u", "B", "d", 1, 1, "2024-01-01"⟩]

/-- Witness for C8: the first record's title wins on a concrete input — the
single `top_urls` entry of `build_aggregate c8rs` carries title `"A"`, the
first non-empty title recorded for url `"u"`. -/
theorem build_aggregate_first_title_witness :
    (some "A" : Option String)
      = (c8rs.find? (fun r => r.url = "u" ∧ ¬ r.title = "")).map (·.title) :=
  build_aggregate_first_title c8rs ((build_aggregate c8rs).toOption.get (by rfl)) rfl
    ⟨"u", 2, some "A"⟩ (by decide)

/-! ### Distribution bucket sums (claim C10) -/

lemma bumpAt_sum (v : List Nat) (i : Nat) (hi : i < v.length) :
    (bumpAt v i).sum = v.sum + 1 := by
  induction v generalizing i with
  | nil => simp at hi
  | cons x xs ih =>
      cases i with
      | zero =>
          simp only [bumpAt, List.getD_cons_zero, List.set_cons_zero, List.sum_cons]
          omega
      | succ j =>
          have hj : j < xs.length := by
            simpa using hi
          simp only [bumpAt, List.getD_cons_succ, List.set_cons_succ, List.sum_cons]
          have := ih j hj
          simp only [bumpAt] at this
          omega

lemma bumpAt_length (v : List Nat) (i : Nat) : (bumpAt v i).length = v.length := by
  simp [bumpAt]

lemma fold_bump_sum :
    ∀ (rs : List Record) (sel : Record → Nat) (bound : Nat) (v : List Nat),
      v.length = bound → (∀ r, sel r < bound) →
      (rs.foldl (fun v r => bumpAt v (sel r)) v).sum = v.sum + rs.length ∧
        (rs.foldl (fun v r => bumpAt v (sel r)) v).length = bound := by
  intro rs
  induction rs with
  | nil =>
      intro sel bound v hv _
      simp [hv]
  | cons r rs ih =>
      intro sel bound v hv hsel
      rw [List.foldl_cons]
      have hlt : sel r < v.length := by
        rw [hv]
        exact hsel r
      obtain ⟨ih1, ih2⟩ := ih sel bound (bumpAt v (sel r))
        (by rw [bumpAt_length, hv]) hsel
      refine ⟨?_, ih2⟩
      rw [ih1, bumpAt_sum v (sel r) hlt, List.length_cons]
      omega

/-- Claim C10: in every Aggregate produced by `build_aggregate`, the 24 hourly
buckets sum to `total_visits` and the 7 weekday buckets sum to
`total_visits`: every record lands in exactly one bucket of each histogram. -/
theorem build_aggregate_distribution_sums (rs : List Record) (a : Aggregate)
    (h : build_aggregate rs = .ok a) :
    a.hourly_distribution.sum = a.total_visits ∧
      (a.weekday_distribution.map Prod.snd).sum = a.total_visits := by
  unfold build_aggregate at h
  rcases hm : mapQueries rs with e0 | queries
  · rw [hm] at h
    cases h
  · rw [hm] at h
    cases h
    constructor
    · show (hourly_distribution rs).sum = rs.length
      unfold hourly_distribution
      have hs := fold_bump_sum rs (fun r => r.hour.val) 24 (List.replicate 24 0)
        (by simp) (fun r => r.hour.isLt)
      rw [hs.1]
      simp
    · show ((weekday_distribution rs).map Prod.snd).sum = rs.length
      unfold weekday_distribution
      have hs := fold_bump_sum rs (fun r => r.weekday.val) 7 (List.replicate 7 0)
        (by simp) (fun r => r.weekday.isLt)
      rw [List.map_snd_zip weekdayNames _ (by rw [hs.2]; rfl)]
      rw [hs.1]
      simp

/-- Concrete input for the C10 witness. -/
def c10rs : List Record :=
  [⟨"a", "", "d", 3, 2, "2024-01-01"⟩,
   ⟨"b", "", "d", 3, 6, "2024-01-02"⟩,
   ⟨"c", "", "d", 23, 0, "2024-01-03"⟩]

/-- Witness for C10: the bucket sums equal total visits on a concrete input. -/
theorem build_aggregate_distribution_sums_witness :
    ((build_aggregate c10rs).toOption.get (by rfl)).hourly_distribution.sum
        = ((build_aggregate c10rs).toOption.get (by rfl)).total_visits ∧
      (((build_aggregate c10rs).toOption.get (by rfl)).weekday_distribution.map
          Prod.snd).sum
        = ((build_aggregate c10rs).toOption.get (by rfl)).total_visits :=
  build_aggregate_distribution_sums c10rs
    ((build_aggregate c10rs).toOption.get (by rfl)) rfl

/-! ## The multi-source merge (`merge_timeline_data.py`)

`merge_daily` reads, for each named source (in dict order), that source's
per-date files in sorted filename order; every visit record is tagged with
its source name and appended to the per-date bucket of a `defaultdict`. The
merged per-date summary is then recomputed from each bucket. A visit record
is modelled by its `url` field (`Option String`: the only field the merge
summary reads; `none` models a record without a url key); a tagged record is
a `(source, url)` pair. -/

structure DailyFile where
  date : String
  visits : List (Option String)
deriving Repr, DecidableEq

/-- The `by_date` accumulation of `merge_daily`: for each source, file and
record in order, append the source-tagged record to its date's bucket
(`addQsVal` is exactly one `defaultdict`-append). -/
def mergeByDate (sources : List (String × List DailyFile)) :
    List (String × List (String × Option String)) :=
  sources.foldl
    (fun bd s =>
      s.2.foldl
        (fun bd f => f.visits.foldl (fun bd v => addQsVal bd f.date (s.1, v)) bd)
        bd)
    []

/-- The truthiness filter `v.get("url")`: present and non-empty. -/
def tagUrl (v : String × Option String) : Option String :=
  match v.2 with
  | some u => if u = "" then none else some u
  | none => none

/-- The merged per-date summary list of `merge_daily` (dates sorted, visits
counted with multiplicity, unique urls recomputed from the concatenated
tagged bucket). -/
def merge_daily_summary (sources : List (String × List DailyFile)) :
    List DailySummaryEntry :=
  (sortByKey (mergeByDate sources)).map
    (fun p => ⟨p.1, p.2.length, (p.2.filterMap tagUrl).dedup.length⟩)

/-- The flattened (date, tagged-record) sequence the nested loops of
`merge_daily` traverse, in traversal order. -/
def flatSeq (sources : List (String × List DailyFile)) :
    List (String × (String × Option String)) :=
  sources.flatMap (fun s => s.2.flatMap (fun f => f.visits.map (fun v => (f.date, (s.1, v)))))

/-- The concatenated source-tagged record list for one date, in merge order. -/
def taggedVisitsFor (sources : List (String × List DailyFile)) (d : String) :
    List (String × Option String) :=
  sources.flatMap (fun s => s.2.flatMap
    (fun f => if f.date = d then f.visits.map (fun v => (s.1, v)) else []))

lemma foldl_bind {γ α β : Type} (f : β → α → β) (l : List γ) (g : γ → List α) (b : β) :
    (l.flatMap g).foldl f b = l.foldl (fun acc x => (g x).foldl f acc) b := by
  induction l generalizing b with
  | nil => rfl
  | cons x xs ih =>
      rw [List.flatMap_cons, List.foldl_append, List.foldl_cons, ih]

lemma mergeByDate_eq_flat (sources : List (String × List DailyFile)) :
    mergeByDate sources
      = (flatSeq sources).foldl (fun acc p => addQsVal acc p.1 p.2) [] := by
  unfold mergeByDate flatSeq
  rw [foldl_bind]
  congr 1
  funext bd s
  rw [foldl_bind]
  congr 1
  funext bd2 f
  rw [List.foldl_map]

lemma filterMap_const_none {α β : Type} (l : List α) :
    l.filterMap (fun _ => (none : Option β)) = [] := by
  induction l with
  | nil => rfl
  | cons x xs ih => simp [List.filterMap_cons, ih]

lemma filterMap_comp_some {α β : Type} (g : α → β) (l : List α) :
    l.filterMap (fun x => some (g x)) = l.map g := by
  induction l with
  | nil => rfl
  | cons x xs ih => simp [List.filterMap_cons, ih]

lemma filterMap_flatMap {α β γ : Type} (l : List γ) (g : γ → List α) (h : α → Option β) :
    (l.flatMap g).filterMap h = l.flatMap (fun x => (g x).filterMap h) := by
  induction l with
  | nil => rfl
  | cons x xs ih =>
      rw [List.flatMap_cons, List.filterMap_append, ih, List.flatMap_cons]

lemma taggedVisitsFor_eq_filter (sources : List (String × List DailyFile)) (d : String) :
    taggedVisitsFor sources d
      = (flatSeq sources).filterMap (fun p => if p.1 = d then some p.2 else none) := by
  unfold taggedVisitsFor flatSeq
  rw [filterMap_flatMap]
  congr 1
  funext s
  rw [filterMap_flatMap]
  congr 1
  funext f
  rw [List.filterMap_map]
  by_cases hf : f.date = d
  · rw [if_pos hf]
    have : ((fun p : String × (String × Option String) =>
        if p.1 = d then some p.2 else none) ∘ fun v => (f.date, (s.1, v)))
        = fun v => some (s.1, v) := by
      funext v
      simp [hf]
    rw [this, filterMap_comp_some]
  · rw [if_neg hf]
    have : ((fun p : String × (String × Option String) =>
        if p.1 = d then some p.2 else none) ∘ fun v => (f.date, (s.1, v)))
        = fun _ => none := by
      funext v
      simp [hf]
    rw [this, filterMap_const_none]

lemma filterMap_if_eq_map_filter {γ : Type} (l : List (String × γ)) (d : String) :
    l.filterMap (fun p => if p.1 = d then some p.2 else none)
      = (l.filter (fun q => q.1 = d)).map (·.2) := by
  induction l with
  | nil => rfl
  | cons p ps ih =>
      by_cases h : p.1 = d
      · have hstep : List.filterMap (fun p : String × γ => if p.1 = d then some p.2 else none)
            (p :: ps)
            = p.2 :: List.filterMap
              (fun p : String × γ => if p.1 = d then some p.2 else none) ps :=
          List.filterMap_cons_some (by simp [h])
        rw [hstep, List.filter_cons_of_pos (by simpa using h), List.map_cons, ih]
      · have hstep : List.filterMap (fun p : String × γ => if p.1 = d then some p.2 else none)
            (p :: ps)
            = List.filterMap (fun p : String × γ => if p.1 = d then some p.2 else none) ps :=
          List.filterMap_cons_none (by simp [h])
        rw [hstep, List.filter_cons_of_neg (by simpa using h), ih]

lemma addQsVal_keys {β : Type} (m : List (String × List β)) (k : String) (v : β) :
    (addQsVal m k v).map Prod.fst
      = if k ∈ m.map Prod.fst then m.map Prod.fst else m.map Prod.fst ++ [k] := by
  induction m with
  | nil => simp [addQsVal]
  | cons p ps ih =>
      by_cases hp : p.1 = k
      · rw [show addQsVal (p :: ps) k v = (p.1, p.2 ++ [v]) :: ps from by
          simp [addQsVal, hp]]
        simp [hp]
      · rw [show addQsVal (p :: ps) k v = p :: addQsVal ps k v from by
          simp [addQsVal, hp]]
        simp only [List.map_cons, ih]
        by_cases hm : k ∈ ps.map Prod.fst
        · rw [if_pos hm, if_pos (List.mem_cons_of_mem _ hm)]
        · rw [if_neg hm, if_neg (by
            intro hc
            rcases List.mem_cons.mp hc with hc | hc
            · exact hp hc.symm
            · exact hm hc)]
          rfl

lemma foldl_addQsVal_keys_nodup {β : Type} :
    ∀ (seq : List (String × β)) (acc : List (String × List β)),
      (acc.map Prod.fst).Nodup →
      ((seq.foldl (fun acc p => addQsVal acc p.1 p.2) acc).map Prod.fst).Nodup := by
  intro seq
  induction seq with
  | nil =>
      intro acc h
      exact h
  | cons q qs ih =>
      intro acc h
      rw [List.foldl_cons]
      apply ih
      rw [addQsVal_keys]
      by_cases hm : q.1 ∈ acc.map Prod.fst
      · rw [if_pos hm]
        exact h
      · rw [if_neg hm]
        rw [List.nodup_append]
        exact ⟨h, List.nodup_singleton _, by simpa using hm⟩

lemma lookupA_of_mem_nodup {β : Type} (m : List (String × β)) (k : String) (v : β)
    (hn : (m.map Prod.fst).Nodup) (hm : (k, v) ∈ m) : lookupA m k = some v := by
  induction m with
  | nil => exact absurd hm (List.not_mem_nil _)
  | cons p ps ih =>
      rw [lookupA_cons]
      rcases List.mem_cons.mp hm with hm0 | hm'
      · rw [← hm0, if_pos rfl]
      · have hn' := List.nodup_cons.mp (show (p.1 :: ps.map Prod.fst).Nodup by simpa using hn)
        have hkmem : k ∈ ps.map Prod.fst := List.mem_map_of_mem Prod.fst hm'
        have hp : ¬ p.1 = k := fun hc => hn'.1 (by rw [hc]; exact hkmem)
        rw [if_neg hp]
        exact ih hn'.2 hm'

lemma mergeByDate_lookup (sources : List (String × List DailyFile)) (d : String) :
    lookupA (mergeByDate sources) d
      = if taggedVisitsFor sources d = [] then none
        else some (taggedVisitsFor sources d) := by
  rw [mergeByDate_eq_flat, lookupA_qsFoldAux (flatSeq sources) [] d, lookupA_nil]
  rw [taggedVisitsFor_eq_filter, filterMap_if_eq_map_filter]
  by_cases hf : (flatSeq sources).filter (fun q => q.1 = d) = []
  · rw [if_pos ⟨rfl, hf⟩, if_pos (by rw [hf]; rfl)]
  · rw [if_neg (fun hc => hf hc.2), if_neg (by
      intro hc
      exact hf (List.map_eq_nil_iff.mp hc))]
    simp

lemma insertByKey_perm {β : Type} (p : String × β) (l : List (String × β)) :
    (insertByKey p l).Perm (p :: l) := by
  induction l with
  | nil => exact List.Perm.refl _
  | cons q qs ih =>
      unfold insertByKey
      by_cases h : q.1 < p.1
      · rw [if_pos h]
        exact (ih.cons q).trans (List.Perm.swap p q qs)
      · rw [if_neg h]

lemma sortByKey_perm {β : Type} (l : List (String × β)) : (sortByKey l).Perm l := by
  induction l with
  | nil => exact List.Perm.refl _
  | cons p ps ih =>
      unfold sortByKey
      exact (insertByKey_perm p (sortByKey ps)).trans (ih.cons p)

/-- Claim C9: in the merged per-date daily output, each date's bucket is the
concatenated source-tagged record list for that date (sources in merge
order), the visit count is that list's length (every record counted with
multiplicity), and `unique_urls` is recomputed freshly from that concatenated
list as the number of distinct present-and-non-empty urls — so a url visited
under two sources on the same date counts twice toward visits but once
toward unique_urls. -/
theorem merge_daily_unique_recompute (sources : List (String × List DailyFile))
    (d : String) (l : List (String × Option String))
    (h : (d, l) ∈ mergeByDate sources) :
    l = taggedVisitsFor sources d ∧
      (⟨d, l.length, (l.filterMap tagUrl).dedup.length⟩ : DailySummaryEntry)
        ∈ merge_daily_summary sources := by
  have hnod : ((mergeByDate sources).map Prod.fst).Nodup := by
    rw [mergeByDate_eq_flat]
    exact foldl_addQsVal_keys_nodup (flatSeq sources) [] (by simp)
  have hlook := lookupA_of_mem_nodup (mergeByDate sources) d l hnod h
  rw [mergeByDate_lookup] at hlook
  by_cases ht : taggedVisitsFor sources d = []
  · rw [if_pos ht] at hlook
    cases hlook
  · rw [if_neg ht] at hlook
    injection hlook with hl
    refine ⟨hl.symm, ?_⟩
    unfold merge_daily_summary
    exact List.mem_map.mpr ⟨(d, l), (sortByKey_perm _).mem_iff.mpr h, rfl⟩

/-- Concrete input for the C9 witness: url `x` visited once under source `A`
and once under source `B` on the same date. -/
def c9sources : List (String × List DailyFile) :=
  [("A", [⟨"2024-01-01", [some "x"]⟩]),
   ("B", [⟨"2024-01-01", [some "x"]⟩])]

/-- Witness for C9: the shared url contributes 2 to the date's visit count
and exactly 1 to its unique_urls. -/
theorem merge_daily_unique_recompute_witness :
    [("A", some "x"), ("B", some "x")] = taggedVisitsFor c9sources "2024-01-01" ∧
      (⟨"2024-01-01", 2, 1⟩ : DailySummaryEntry) ∈ merge_daily_summary c9sources := by
  have h := merge_daily_unique_recompute c9sources "2024-01-01"
    [("A", some "x"), ("B", some "x")] (by decide)
  exact ⟨h.1, h.2⟩

/-! ## Merged aggregate unique-url count (`merge_aggregate`)

`merge_aggregate` reads each source's aggregate file and adds every
present-and-non-empty url of its (already capped) `top_urls` list to one
Python `set`; the merged `unique_urls` is that set's size. The set is
modelled as a first-occurrence list. -/

/-- One `set.add`. -/
def addNew (seen : List String) (u : String) : List String :=
  if u ∈ seen then seen else seen ++ [u]

/-- The `unique_urls` computation of `merge_aggregate`: fold over sources and
their `top_urls` items, adding each truthy url to the set. -/
def mergeAggUniqueUrls (aggs : List Aggregate) : Nat :=
  (aggs.foldl
    (fun seen a =>
      a.top_urls.foldl
        (fun seen e => if e.url ≠ "" then addNew seen e.url else seen)
        seen)
    []).length

/-- The present-and-non-empty urls of all sources' `top_urls` lists, in merge
order. -/
def mergedUrlList (aggs : List Aggregate) : List String :=
  aggs.flatMap (fun a => a.top_urls.filterMap
    (fun e => if e.url = "" then none else some e.url))

lemma entries_fold_addNew (entries : List UrlEntry) (seen : List String) :
    entries.foldl (fun seen e => if e.url ≠ "" then addNew seen e.url else seen) seen
      = (entries.filterMap (fun e => if e.url = "" then none else some e.url)).foldl
          addNew seen := by
  induction entries generalizing seen with
  | nil => rfl
  | cons e es ih =>
      rw [List.foldl_cons]
      by_cases he : e.url = ""
      · have hstep : List.filterMap
            (fun e : UrlEntry => if e.url = "" then none else some e.url) (e :: es)
            = List.filterMap
              (fun e : UrlEntry => if e.url = "" then none else some e.url) es :=
          List.filterMap_cons_none (by simp [he])
        rw [hstep, if_neg (by simpa using he), ih]
      · have hstep : List.filterMap
            (fun e : UrlEntry => if e.url = "" then none else some e.url) (e :: es)
            = e.url :: List.filterMap
              (fun e : UrlEntry => if e.url = "" then none else some e.url) es :=
          List.filterMap_cons_some (by simp [he])
        rw [hstep, if_pos (by simpa using he), List.foldl_cons, ih]

lemma foldl_addNew_spec :
    ∀ (us : List String) (seen : List String), seen.Nodup →
      (us.foldl addNew seen).Nodup ∧
        (us.foldl addNew seen).toFinset = seen.toFinset ∪ us.toFinset := by
  intro us
  induction us with
  | nil =>
      intro seen h
      exact ⟨h, by simp⟩
  | cons u us ih =>
      intro seen h
      rw [List.foldl_cons]
      by_cases hu : u ∈ seen
      · rw [show addNew seen u = seen from by rw [addNew, if_pos hu]]
        obtain ⟨ihn, ihf⟩ := ih seen h
        refine ⟨ihn, ?_⟩
        rw [ihf]
        ext x
        simp only [Finset.mem_union, List.mem_toFinset, List.mem_cons]
        constructor
        · rintro (hx | hx)
          · exact Or.inl hx
          · exact Or.inr (Or.inr hx)
        · rintro (hx | hx | hx)
          · exact Or.inl hx
          · exact Or.inl (by rw [hx]; exact hu)
          · exact Or.inr hx
      · rw [show addNew seen u = seen ++ [u] from by rw [addNew, if_neg hu]]
        have hn2 : (seen ++ [u]).Nodup := by
          rw [List.nodup_append]
          exact ⟨h, List.nodup_singleton u, by simpa using hu⟩
        obtain ⟨ihn, ihf⟩ := ih (seen ++ [u]) hn2
        refine ⟨ihn, ?_⟩
        rw [ihf]
        ext x
        simp only [Finset.mem_union, List.mem_toFinset, List.mem_append, List.mem_cons,
          List.mem_singleton, List.not_mem_nil, or_false]
        tauto

lemma mergeAggUniqueUrls_eq (aggs : List Aggregate) :
    mergeAggUniqueUrls aggs = (mergedUrlList aggs).dedup.length := by
  unfold mergeAggUniqueUrls mergedUrlList
  have hfun : (fun (seen : List String) (a : Aggregate) =>
      a.top_urls.foldl (fun seen e => if e.url ≠ "" then addNew seen e.url else seen) seen)
      = (fun acc a => (a.top_urls.filterMap
          (fun e => if e.url = "" then none else some e.url)).foldl addNew acc) := by
    funext seen a
    exact entries_fold_addNew a.top_urls seen
  rw [hfun]
  rw [← foldl_bind addNew aggs
    (fun a => a.top_urls.filterMap (fun e => if e.url = "" then none else some e.url)) []]
  obtain ⟨hnod, hfin⟩ := foldl_addNew_spec
    (aggs.flatMap (fun a => a.top_urls.filterMap
      (fun e => if e.url = "" then none else some e.url))) [] (List.nodup_nil)
  rw [← List.toFinset_card_of_nodup hnod, hfin]
  simp only [List.toFinset_nil, Finset.empty_union]
  exact List.card_toFinset _

/-- Concrete input for the C1 counterexample: one source whose records visit
51 distinct urls, one more than the `top_urls` cap. -/
def c1rs : List Record :=
  (List.range 51).map
    (fun i => ⟨String.mk [Char.ofNat (65 + i)], "", "", 0, 0, "2024-01-01"⟩)

/-- Counterexample for C1: a single source whose records contain 51 distinct
urls. Its own aggregate records `unique_urls = 51`, but the merged
unique-url count is 50: `merge_aggregate` only sees the source's capped
`top_urls` list, so it does not count each distinct url the source saw. -/
theorem merge_aggregate_unique_counterexample :
    ((build_aggregate c1rs).toOption.get (by decide)).unique_urls = 51 ∧
      (c1rs.map (·.url)).dedup.length = 51 ∧
      mergeAggUniqueUrls [(build_aggregate c1rs).toOption.get (by decide)] = 50 := by
  refine ⟨by decide, by decide, by decide⟩

/-- Claim C1 (amended): for every list of source Aggregates, the merged
`unique_urls` equals the number of distinct present-and-non-empty urls
occurring in the sources' `top_urls` lists — the cardinality of the union
across sources (each distinct url counted once, never the sum of per-source
unique counts); urls a source saw that fell outside its capped `top_urls`
list are not counted. -/
theorem merge_aggregate_unique_urls_amended (aggs : List Aggregate) :
    mergeAggUniqueUrls aggs = (mergedUrlList aggs).dedup.length :=
  mergeAggUniqueUrls_eq aggs

/-! ## Timestamp conversion (`chrome_time_to_datetime` / `datetime_to_chrome_time`)

The two conversions use CPython float (IEEE-754 binary64) arithmetic:
`chrome_ts / 1_000_000` and `dt.timestamp()` produce correctly rounded
doubles, and each subsequent `+`, `-`, `*` rounds its exact result to the
nearest double (ties to even). Every finite double is a dyadic rational,
modelled below as `Dy` (`num / 2 ^ den`); correct rounding of an exact
rational `a / b` is computed with integer arithmetic only: a fuel-bounded
scan locates the binade (valid for all magnitudes in `(2 ^ (-200), 2 ^ 200)`,
far beyond the values these conversions see), and the 53-bit significand is
obtained from the integer quotient and remainder with ties broken to even.
`datetime.fromtimestamp` splits the double with `math.modf` (exact) and
rounds the fractional part times `10 ^ 6` (one more float multiply)
half-to-even to whole microseconds, carrying overflow into the seconds. -/

/-- A dyadic rational `num / 2 ^ den`; every finite binary64 value is one. -/
structure Dy where
  num : ℤ
  den : ℕ

/-- Smallest `k` with `2 ^ 52 * b ≤ a * 2 ^ k` (fuel-bounded scan). -/
def findUp (fuel : ℕ) (a b : ℕ) : ℕ :=
  match fuel with
  | 0 => 0
  | fuel + 1 => if 2 ^ 52 * b ≤ a then 0 else findUp fuel (2 * a) b + 1

/-- Smallest `j` with `a < 2 ^ 53 * b * 2 ^ j` (fuel-bounded scan). -/
def findDown (fuel : ℕ) (a b : ℕ) : ℕ :=
  match fuel with
  | 0 => 0
  | fuel + 1 => if a < 2 ^ 53 * b then 0 else findDown fuel a (2 * b) + 1

/-- Round the positive rational `a / b` to the nearest binary64 value
(53-bit significand, ties to even; overflow and subnormals are out of range
for the values involved). -/
def roundPosQ (a b : ℕ) : Dy :=
  let k := findUp 200 a b
  let A := a * 2 ^ k
  let j := findDown 200 A b
  let B := b * 2 ^ j
  let q := A / B
  let r := A % B
  let m := if 2 * r < B then q else if B < 2 * r then q + 1
           else if q % 2 = 0 then q else q + 1
  if k ≤ j then ⟨((m * 2 ^ (j - k) : ℕ) : ℤ), 0⟩ else ⟨(m : ℤ), k - j⟩

/-- Correct rounding of the exact rational `a / b` (with `b > 0`) to
binary64; rounding is symmetric in the sign. -/
def roundQ (a : ℤ) (b : ℕ) : Dy :=
  if a = 0 then ⟨0, 0⟩
  else if 0 < a then roundPosQ a.toNat b
  else let d := roundPosQ (-a).toNat b; ⟨-d.num, d.den⟩

/-- Binary64 addition of a double and an integer: the exact sum, re-rounded. -/
def addDI (x : Dy) (n : ℤ) : Dy := roundQ (x.num + n * 2 ^ x.den) (2 ^ x.den)

/-- Binary64 multiplication of a double by a natural: exact, re-rounded. -/
def mulDN (x : Dy) (n : ℕ) : Dy := roundQ (x.num * (n : ℤ)) (2 ^ x.den)

/-- Truncation toward zero, CPython `int(float)` / the integer part of
`math.modf`. -/
def truncD (x : Dy) : ℤ :=
  if 0 ≤ x.num then ((x.num.toNat / 2 ^ x.den : ℕ) : ℤ)
  else -(((-x.num).toNat / 2 ^ x.den : ℕ) : ℤ)

/-- Fractional part of `math.modf`: exact, carries the sign of the input. -/
def fracD (x : Dy) : Dy :=
  if 0 ≤ x.num then ⟨((x.num.toNat % 2 ^ x.den : ℕ) : ℤ), x.den⟩
  else ⟨-(((-x.num).toNat % 2 ^ x.den : ℕ) : ℤ), x.den⟩

/-- Round the nonnegative dyadic `a / 2 ^ d` to the nearest natural, ties to
even. -/
def rndHEposN (a d : ℕ) : ℕ :=
  let B := 2 ^ d
  let q := a / B
  let r := a % B
  if 2 * r < B then q else if B < 2 * r then q + 1
  else if q % 2 = 0 then q else q + 1

/-- Round a dyadic to the nearest integer, ties to even (CPython `round` on
a float, which is sign-symmetric). -/
def rndHE (x : Dy) : ℤ :=
  if 0 ≤ x.num then (rndHEposN x.num.toNat x.den : ℤ)
  else -(rndHEposN (-x.num).toNat x.den : ℤ)

/-- Modelled CPython-float evaluation of `datetime_to_chrome_time` on the
instant that is `mu` microseconds after the UNIX epoch:
`int((dt.timestamp() + 11_644_473_600) * 1_000_000)`, where `timestamp()`
divides the exact microsecond count by `10 ^ 6` as a correctly rounded
double. -/
def datetime_to_chrome_time_fp (mu : ℤ) : ℤ :=
  let u := roundQ mu 1000000
  let s := addDI u 11644473600
  let p := mulDN s 1000000
  truncD p

/-- Modelled CPython-float evaluation of `chrome_time_to_datetime` on a
chrome timestamp, returning the resulting UTC instant as microseconds after
the UNIX epoch: `datetime.fromtimestamp(chrome_ts / 1_000_000 -
11_644_473_600, tz=utc)`, with `fromtimestamp` splitting the double via
`modf` and rounding the fractional part times `10 ^ 6` half-to-even to
microseconds, carrying overflow into the seconds. -/
def chrome_time_to_datetime_fp (c : ℤ) : ℤ :=
  let q := roundQ c 1000000
  let w := addDI q (-11644473600)
  let t := truncD w
  let us := rndHE (mulDN (fracD w) 1000000)
  if us ≥ 1000000 then (t + 1) * 1000000 + (us - 1000000)
  else if us < 0 then (t - 1) * 1000000 + (us + 1000000)
  else t * 1000000 + us

/-- Claim C2 evaluation: the instant 2024-01-01T00:00:00.000001Z
(`1704067200000001` μs after the UNIX epoch, microsecond-representable)
does not round-trip: `datetime_to_chrome_time` already truncates it to the
chrome timestamp `13348540800000000` (the exact value would be
`13348540800000001`), and converting back yields
2024-01-01T00:00:00.000000Z — the microsecond is lost to binary64
rounding, contradicting the claimed exact round trip. -/
theorem chrome_roundtrip_drops_microsecond :
    datetime_to_chrome_time_fp 1704067200000001 = 13348540800000000 ∧
      chrome_time_to_datetime_fp (datetime_to_chrome_time_fp 1704067200000001)
        = 1704067200000000 ∧
      (1704067200000000 : ℤ) ≠ 1704067200000001 := by
  refine ⟨by decide, by decide, by decide⟩

end VivaldiHistory
